import Mathlib

/-!
# Verification of a Thompson-construction NFA regex engine

Shallow embedding of `src/index.ts`: mutable `State` objects become entries
in an arena (a list of states indexed by natural-number handles), fragments
(`NFA`) are pairs of handles, and the combinators thread the arena
explicitly, mirroring the in-place mutation of the source.  The recursive
matcher `State.test` is embedded as `testFuel`, structurally recursive on an
explicit fuel bounding recursion depth; a computable fuel bound `fuelNeed`
is proved sufficient, which is the termination property of the source
matcher.  The JavaScript `Set` passed by reference through the
epsilon-exploration is modelled by threading the visited set through the
loop and returning the final set alongside the boolean.
-/

set_option maxHeartbeats 1000000

namespace RegexNfa

/-- A state of the automaton: an accepting flag and an insertion-ordered
transition table from symbols to lists of target state handles
(`Map<string, Array<State>>` in the source, with object references replaced
by arena handles). -/
structure State where
  accepting : Bool
  transitionMap : List (Char × List Nat)
  deriving DecidableEq

/-- `Map.get(symbol) ?? []`. -/
def mapGet (m : List (Char × List Nat)) (k : Char) : List Nat :=
  match m with
  | [] => []
  | p :: rest => if p.1 = k then p.2 else mapGet rest k

/-- `Map.set(symbol, v)`: replace the value at an existing key in place,
otherwise append the binding at the end (JavaScript `Map` insertion
order). -/
def mapSet (m : List (Char × List Nat)) (k : Char) (v : List Nat) :
    List (Char × List Nat) :=
  match m with
  | [] => [(k, v)]
  | p :: rest => if p.1 = k then (k, v) :: rest else p :: mapSet rest k v

/-- `addTransitionForSymbol`: append the target to the (possibly empty)
sequence stored for the symbol. -/
def State.addTransitionForSymbol (s : State) (symbol : Char) (target : Nat) :
    State :=
  { s with transitionMap :=
      mapSet s.transitionMap symbol (mapGet s.transitionMap symbol ++ [target]) }

/-- `getTransitionsForSymbol`. -/
def State.getTransitionsForSymbol (s : State) (symbol : Char) : List Nat :=
  mapGet s.transitionMap symbol

/-- The arena of all allocated states; a `State` object reference in the
source is a position in this list. -/
abbrev Arena := List State

/-- Dereference a handle; an out-of-range handle yields an inert state
(unreachable in source-built arenas). -/
def getState (a : Arena) (sid : Nat) : State :=
  a.getD sid ⟨false, []⟩

/-- Transitions of a state by handle. -/
def trans (a : Arena) (sid : Nat) (symbol : Char) : List Nat :=
  (getState a sid).getTransitionsForSymbol symbol

/-- In-place mutation `state.addTransitionForSymbol(symbol, target)`. -/
def addTransition (a : Arena) (sid : Nat) (symbol : Char) (target : Nat) :
    Arena :=
  a.set sid ((getState a sid).addTransitionForSymbol symbol target)

/-- In-place mutation `state.accepting = b`. -/
def setAccepting (a : Arena) (sid : Nat) (b : Bool) : Arena :=
  a.set sid { getState a sid with accepting := b }

/-- `new State({accepting})`: allocate a fresh state, returning its handle. -/
def createState (a : Arena) (accepting : Bool) : Arena × Nat :=
  (a ++ [⟨accepting, []⟩], a.length)

/-- An `NFA` fragment: entry and exit state handles. -/
structure NFA where
  inState : Nat
  outState : Nat
  deriving DecidableEq

/-- The reserved epsilon sentinel symbol. -/
def EPSILON : Char := 'ϵ'

/-- `char(symbol)`: fresh non-accepting entry, fresh accepting exit, one
transition entry→exit on the symbol. -/
def char (a : Arena) (symbol : Char) : Arena × NFA :=
  let (a1, inId) := createState a false
  let (a2, outId) := createState a1 true
  let a3 := addTransition a2 inId symbol outId
  (a3, ⟨inId, outId⟩)

/-- `epsilon()` = `char(EPSILON)`. -/
def epsilon (a : Arena) : Arena × NFA :=
  char a EPSILON

/-- `concatPair(first, second)`. -/
def concatPair (a : Arena) (first second : NFA) : Arena × NFA :=
  let a1 := setAccepting a first.outState false
  let a2 := setAccepting a1 second.outState true
  let a3 := addTransition a2 first.outState EPSILON second.inState
  (a3, ⟨first.inState, second.outState⟩)

/-- `concat(first, ...rest)`: left fold of `concatPair`. -/
def concat (a : Arena) (first : NFA) (rest : List NFA) : Arena × NFA :=
  rest.foldl (fun p n => concatPair p.1 p.2 n) (a, first)

/-- `orPair(first, second)`. -/
def orPair (a : Arena) (first second : NFA) : Arena × NFA :=
  let a1 := setAccepting a first.outState false
  let a2 := setAccepting a1 second.outState false
  let (a3, inId) := createState a2 false
  let (a4, outId) := createState a3 true
  let a5 := addTransition a4 inId EPSILON first.inState
  let a6 := addTransition a5 inId EPSILON second.inState
  let a7 := addTransition a6 first.outState EPSILON outId
  let a8 := addTransition a7 second.outState EPSILON outId
  (a8, ⟨inId, outId⟩)

/-- `or(first, ...rest)`: left fold of `orPair`. -/
def orN (a : Arena) (first : NFA) (rest : List NFA) : Arena × NFA :=
  rest.foldl (fun p n => orPair p.1 p.2 n) (a, first)

/-- `rep(fragment)`: Kleene star; adds epsilon entry→exit and exit→entry,
returning the same fragment. -/
def rep (a : Arena) (fragment : NFA) : Arena × NFA :=
  let a1 := addTransition a fragment.inState EPSILON fragment.outState
  let a2 := addTransition a1 fragment.outState EPSILON fragment.inState
  (a2, fragment)

/-- `plusRep(fragment)`: adds only epsilon exit→entry. -/
def plusRep (a : Arena) (fragment : NFA) : Arena × NFA :=
  let a1 := addTransition a fragment.outState EPSILON fragment.inState
  (a1, fragment)

/-- `questionRep(fragment)`: adds only epsilon entry→exit. -/
def questionRep (a : Arena) (fragment : NFA) : Arena × NFA :=
  let a1 := addTransition a fragment.inState EPSILON fragment.outState
  (a1, fragment)

/-- The `for (const nextState of symbolTransitions) { if (nextState.test(rest))
return true; }` loop: each iteration uses a fresh visited set, so only the
boolean is threaded.  `none` propagates fuel exhaustion. -/
def anyLoop (f : Nat → Option Bool) : List Nat → Option Bool
  | [] => some false
  | t :: ts =>
    match f t with
    | none => none
    | some true => some true
    | some false => anyLoop f ts

/-- The `for (const nextState of this.getTransitionsForSymbol(EPSILON))`
loop: the JavaScript `Set` is a shared mutable object, so the visited set
returned by each recursive call is threaded into the next iteration. -/
def epsLoop (f : Nat → Finset Nat → Option (Bool × Finset Nat)) :
    List Nat → Finset Nat → Option (Bool × Finset Nat)
  | [], v => some (false, v)
  | t :: ts, v =>
    match f t v with
    | none => none
    | some (true, v') => some (true, v')
    | some (false, v') => epsLoop f ts v'

/-- `State.test(input, visited)` with an explicit fuel bounding recursion
depth; `none` means the fuel ran out before the source recursion returned.
Returns the boolean together with the final state of the (mutated) visited
set. -/
def testFuel (a : Arena) : Nat → Nat → List Char → Finset Nat →
    Option (Bool × Finset Nat)
  | 0, _, _, _ => none
  | fuel + 1, sid, input, visited =>
    if sid ∈ visited then some (false, visited)
    else
      let visited' := insert sid visited
      match input with
      | [] =>
        if (getState a sid).accepting then some (true, visited')
        else epsLoop (fun t v => testFuel a fuel t [] v)
          (trans a sid EPSILON) visited'
      | c :: rest =>
        match anyLoop (fun t => (testFuel a fuel t rest ∅).map Prod.fst)
            (trans a sid c) with
        | none => none
        | some true => some (true, visited')
        | some false =>
          epsLoop (fun t v => testFuel a fuel t (c :: rest) v)
            (trans a sid EPSILON) visited'

/-- All handles occurring as transition targets in one state. -/
def stateTargets (s : State) : Finset Nat :=
  s.transitionMap.foldr (fun p acc => p.2.foldr insert acc) ∅

/-- All handles occurring as transition targets anywhere in the arena. -/
def targetsSet (a : Arena) : Finset Nat :=
  a.foldr (fun s acc => stateTargets s ∪ acc) ∅

/-- A computable fuel amount sufficient for `testFuel` to return `some`:
at a fixed residual input the visited set strictly grows inside the finite
set of reachable handles, and consuming a symbol shortens the input. -/
def fuelNeed (a : Arena) (sid : Nat) (input : List Char) (visited : Finset Nat) :
    Nat :=
  input.length * ((targetsSet a).card + 2) +
    ((insert sid (targetsSet a)) \ visited).card + 1

/-- `state.test(input)` from a given state with the default fresh visited
set, run with sufficient fuel. -/
def stest (a : Arena) (sid : Nat) (input : List Char) : Bool :=
  match testFuel a (fuelNeed a sid input ∅) sid input ∅ with
  | some (b, _) => b
  | none => false

/-- `NFA.test(input)`: `this.inState.test(input)`. -/
def NFA.test (a : Arena) (n : NFA) (input : List Char) : Bool :=
  stest a n.inState input

/-- Syntax of client programs over the documented combinators: the claims
quantify over fragments "built purely from the documented combinators", so
a freshly constructed fragment is the result of running such a term. -/
inductive Rx where
  | chr (c : Char)
  | eps
  | cat (r s : Rx)
  | alt (r s : Rx)
  | star (r : Rx)
  | plus (r : Rx)
  | quest (r : Rx)

/-- Run a combinator term against an arena, exactly as a client program
would call the exported constructors: sub-fragments are built first (in
left-to-right order, so they are independent and fresh) and then combined. -/
def build (a : Arena) : Rx → Arena × NFA
  | .chr c => char a c
  | .eps => epsilon a
  | .cat r s =>
    let p := build a r
    let q := build p.1 s
    concatPair q.1 p.2 q.2
  | .alt r s =>
    let p := build a r
    let q := build p.1 s
    orPair q.1 p.2 q.2
  | .star r =>
    let p := build a r
    rep p.1 p.2
  | .plus r =>
    let p := build a r
    plusRep p.1 p.2
  | .quest r =>
    let p := build a r
    questionRep p.1 p.2

/-! ## Basic lemmas about the transition table and arena updates -/

theorem mapGet_mapSet_self (m : List (Char × List Nat)) (k : Char)
    (v : List Nat) : mapGet (mapSet m k v) k = v := by
  induction m with
  | nil => simp [mapSet, mapGet]
  | cons p rest ih =>
    by_cases h : p.1 = k
    · simp [mapSet, mapGet, h]
    · simp [mapSet, mapGet, h, ih]

theorem mapGet_mapSet_ne (m : List (Char × List Nat)) (k k' : Char)
    (v : List Nat) (h : k' ≠ k) : mapGet (mapSet m k v) k' = mapGet m k' := by
  have hk : ¬ (k = k') := fun hh => h hh.symm
  induction m with
  | nil => simp [mapSet, mapGet, hk]
  | cons p rest ih =>
    by_cases hp : p.1 = k
    · have hp' : ¬ p.1 = k' := by rw [hp]; exact hk
      simp only [mapSet, if_pos hp, mapGet, if_neg hk, if_neg hp']
    · by_cases hq : p.1 = k'
      · simp only [mapSet, if_neg hp, mapGet, if_pos hq]
      · simp only [mapSet, if_neg hp, mapGet, if_neg hq, ih]

theorem getTransitions_addTransitionForSymbol (s : State) (c c' : Char)
    (t : Nat) : (s.addTransitionForSymbol c t).getTransitionsForSymbol c' =
      if c' = c then s.getTransitionsForSymbol c ++ [t]
      else s.getTransitionsForSymbol c' := by
  by_cases h : c' = c
  · subst h
    simp [State.addTransitionForSymbol, State.getTransitionsForSymbol,
      mapGet_mapSet_self]
  · simp [State.addTransitionForSymbol, State.getTransitionsForSymbol,
      mapGet_mapSet_ne _ _ _ _ h, h]

theorem accepting_addTransitionForSymbol (s : State) (c : Char) (t : Nat) :
    (s.addTransitionForSymbol c t).accepting = s.accepting := rfl

theorem getState_set_self (a : Arena) (sid : Nat) (s : State)
    (h : sid < a.length) : getState (a.set sid s) sid = s := by
  simp [getState, List.getD, List.getElem?_set, h]

theorem getState_set_ne (a : Arena) (sid j : Nat) (s : State)
    (h : j ≠ sid) : getState (a.set sid s) j = getState a j := by
  simp [getState, List.getD, List.getElem?_set, Ne.symm h]

theorem getState_set_oob (a : Arena) (sid : Nat) (s : State)
    (h : ¬ sid < a.length) : getState (a.set sid s) sid = getState a sid := by
  rw [List.set_eq_of_length_le (Nat.le_of_not_lt h)]

theorem getState_append_lt (a b : Arena) (j : Nat) (h : j < a.length) :
    getState (a ++ b) j = getState a j := by
  simp [getState, List.getD, List.getElem?_append_left h]

theorem getState_append_right (a b : Arena) (j : Nat) (h : a.length ≤ j) :
    getState (a ++ b) j = getState b (j - a.length) := by
  simp [getState, List.getD, List.getElem?_append_right h]

theorem getState_oob (a : Arena) (j : Nat) (h : a.length ≤ j) :
    getState a j = ⟨false, []⟩ := by
  simp [getState, List.getD, List.getElem?_eq_none h]

theorem length_addTransition (a : Arena) (sid : Nat) (c : Char) (t : Nat) :
    (addTransition a sid c t).length = a.length := by
  simp [addTransition]

theorem length_setAccepting (a : Arena) (sid : Nat) (b : Bool) :
    (setAccepting a sid b).length = a.length := by
  simp [setAccepting]

theorem trans_addTransition (a : Arena) (sid : Nat) (c : Char) (t : Nat)
    (j : Nat) (c' : Char) :
    trans (addTransition a sid c t) j c' =
      if j = sid ∧ c' = c ∧ sid < a.length then trans a sid c ++ [t]
      else trans a j c' := by
  by_cases hj : j = sid
  · subst hj
    by_cases hlt : j < a.length
    · rw [trans, addTransition, getState_set_self _ _ _ hlt,
        getTransitions_addTransitionForSymbol]
      by_cases hc : c' = c
      · simp [hc, hlt, trans]
      · simp [hc, hlt, trans]
    · rw [trans, addTransition, getState_set_oob _ _ _ hlt]
      simp [hlt, trans]
  · rw [trans, addTransition, getState_set_ne _ _ _ _ hj]
    simp [hj, trans]

theorem accepting_addTransition (a : Arena) (sid : Nat) (c : Char) (t : Nat)
    (j : Nat) :
    (getState (addTransition a sid c t) j).accepting =
      (getState a j).accepting := by
  by_cases hj : j = sid
  · subst hj
    by_cases hlt : j < a.length
    · rw [addTransition, getState_set_self _ _ _ hlt,
        accepting_addTransitionForSymbol]
    · rw [addTransition, getState_set_oob _ _ _ hlt]
  · rw [addTransition, getState_set_ne _ _ _ _ hj]

theorem trans_setAccepting (a : Arena) (sid : Nat) (b : Bool) (j : Nat)
    (c : Char) : trans (setAccepting a sid b) j c = trans a j c := by
  by_cases hj : j = sid
  · subst hj
    by_cases hlt : j < a.length
    · rw [trans, setAccepting, getState_set_self _ _ _ hlt]
      rfl
    · rw [trans, setAccepting, getState_set_oob _ _ _ hlt]
      rfl
  · rw [trans, setAccepting, getState_set_ne _ _ _ _ hj]
    rfl

theorem accepting_setAccepting (a : Arena) (sid : Nat) (b : Bool) (j : Nat) :
    (getState (setAccepting a sid b) j).accepting =
      if j = sid ∧ sid < a.length then b else (getState a j).accepting := by
  by_cases hj : j = sid
  · subst hj
    by_cases hlt : j < a.length
    · rw [setAccepting, getState_set_self _ _ _ hlt]
      simp [hlt]
    · rw [setAccepting, getState_set_oob _ _ _ hlt]
      simp [hlt]
  · rw [setAccepting, getState_set_ne _ _ _ _ hj]
    simp [hj]

theorem trans_append_lt (a b : Arena) (j : Nat) (c : Char)
    (h : j < a.length) : trans (a ++ b) j c = trans a j c := by
  rw [trans, getState_append_lt _ _ _ h, trans]

theorem trans_oob (a : Arena) (j : Nat) (c : Char) (h : a.length ≤ j) :
    trans a j c = [] := by
  rw [trans, getState_oob _ _ h]
  rfl

theorem trans_append_one (a : Arena) (s : State) (j : Nat) (c : Char) :
    trans (a ++ [s]) j c =
      if j = a.length then s.getTransitionsForSymbol c else trans a j c := by
  by_cases hj : j = a.length
  · subst hj
    rw [trans, getState_append_right _ _ _ (Nat.le_refl _)]
    simp [getState, List.getD]
  · by_cases hlt : j < a.length
    · simp [hj, trans_append_lt _ _ _ _ hlt]
    · have h1 : a.length ≤ j := Nat.le_of_not_lt hlt
      have h2 : (a ++ [s]).length ≤ j := by
        simp only [List.length_append, List.length_singleton]
        omega
      simp [hj, trans_oob _ _ _ h1, trans_oob _ _ _ h2]

theorem accepting_append_one (a : Arena) (s : State) (j : Nat) :
    (getState (a ++ [s]) j).accepting =
      if j = a.length then s.accepting else (getState a j).accepting := by
  by_cases hj : j = a.length
  · subst hj
    rw [getState_append_right _ _ _ (Nat.le_refl _)]
    simp [getState, List.getD]
  · by_cases hlt : j < a.length
    · simp [hj, getState_append_lt _ _ _ hlt]
    · have h1 : a.length ≤ j := Nat.le_of_not_lt hlt
      have h2 : (a ++ [s]).length ≤ j := by
        simp only [List.length_append, List.length_singleton]
        omega
      simp [hj, getState_oob _ _ h1, getState_oob _ _ h2]

/-! ## Unfolding equations for the matcher -/

theorem testFuel_zero (a : Arena) (sid : Nat) (x : List Char)
    (v : Finset Nat) : testFuel a 0 sid x v = none := rfl

theorem testFuel_succ_mem (a : Arena) (fuel sid : Nat) (x : List Char)
    (v : Finset Nat) (h : sid ∈ v) :
    testFuel a (fuel + 1) sid x v = some (false, v) := by
  simp [testFuel, h]

theorem testFuel_succ_nil_acc (a : Arena) (fuel sid : Nat) (v : Finset Nat)
    (h : sid ∉ v) (hacc : (getState a sid).accepting = true) :
    testFuel a (fuel + 1) sid [] v = some (true, insert sid v) := by
  simp [testFuel, h, hacc]

theorem testFuel_succ_nil_eps (a : Arena) (fuel sid : Nat) (v : Finset Nat)
    (h : sid ∉ v) (hacc : (getState a sid).accepting = false) :
    testFuel a (fuel + 1) sid [] v =
      epsLoop (fun t w => testFuel a fuel t [] w) (trans a sid EPSILON)
        (insert sid v) := by
  simp [testFuel, h, hacc]

theorem testFuel_succ_cons (a : Arena) (fuel sid : Nat) (c : Char)
    (rest : List Char) (v : Finset Nat) (h : sid ∉ v) :
    testFuel a (fuel + 1) sid (c :: rest) v =
      match anyLoop (fun t => (testFuel a fuel t rest ∅).map Prod.fst)
          (trans a sid c) with
      | none => none
      | some true => some (true, insert sid v)
      | some false =>
        epsLoop (fun t w => testFuel a fuel t (c :: rest) w)
          (trans a sid EPSILON) (insert sid v) := by
  simp [testFuel, h]

/-! ## Termination: a computable fuel bound is sufficient -/

theorem anyLoop_mono (f g : Nat → Option Bool) (l : List Nat)
    (h : ∀ t ∈ l, ∀ r, f t = some r → g t = some r) (b : Bool) :
    anyLoop f l = some b → anyLoop g l = some b := by
  induction l with
  | nil => intro hl; exact hl
  | cons t ts ih =>
    intro hl
    rcases hf : f t with _ | r
    · rw [anyLoop, hf] at hl; exact absurd hl (by simp)
    · have hg := h t (by simp) r hf
      rcases r with _ | _
      · rw [anyLoop, hf] at hl
        rw [anyLoop, hg]
        exact ih (fun u hu r hr => h u (by simp [hu]) r hr) hl
      · rw [anyLoop, hf] at hl
        rw [anyLoop, hg]
        exact hl

theorem epsLoop_mono (f g : Nat → Finset Nat → Option (Bool × Finset Nat))
    (l : List Nat) (h : ∀ t ∈ l, ∀ v r, f t v = some r → g t v = some r)
    (v : Finset Nat) (r : Bool × Finset Nat) :
    epsLoop f l v = some r → epsLoop g l v = some r := by
  induction l generalizing v with
  | nil => intro hl; exact hl
  | cons t ts ih =>
    intro hl
    rcases hf : f t v with _ | ⟨b, v'⟩
    · rw [epsLoop, hf] at hl; exact absurd hl (by simp)
    · have hg := h t (by simp) v (b, v') hf
      rcases b with _ | _
      · rw [epsLoop, hf] at hl
        rw [epsLoop, hg]
        exact ih (fun u hu w r' hr => h u (by simp [hu]) w r' hr) v' hl
      · rw [epsLoop, hf] at hl
        rw [epsLoop, hg]
        exact hl

theorem testFuel_mono (a : Arena) :
    ∀ f1 f2 sid x v r, f1 ≤ f2 → testFuel a f1 sid x v = some r →
      testFuel a f2 sid x v = some r := by
  intro f1
  induction f1 with
  | zero => intro f2 sid x v r _ h; exact absurd h (by simp [testFuel_zero])
  | succ n ih =>
    intro f2 sid x v r hle h
    obtain ⟨m, rfl⟩ : ∃ m, f2 = m + 1 := by
      cases f2 with
      | zero => omega
      | succ m => exact ⟨m, rfl⟩
    have hnm : n ≤ m := by omega
    by_cases hv : sid ∈ v
    · rw [testFuel_succ_mem _ _ _ _ _ hv] at h ⊢
      exact h
    · cases x with
      | nil =>
        by_cases hacc : (getState a sid).accepting = true
        · rw [testFuel_succ_nil_acc _ _ _ _ hv hacc] at h ⊢
          exact h
        · have hacc' : (getState a sid).accepting = false := by
            simpa using hacc
          rw [testFuel_succ_nil_eps _ _ _ _ hv hacc'] at h ⊢
          exact epsLoop_mono _ _ _
            (fun t _ w r' hr => ih m t [] w r' hnm hr) _ _ h
      | cons c rest =>
        rw [testFuel_succ_cons _ _ _ _ _ _ hv] at h ⊢
        rcases hany : anyLoop
            (fun t => (testFuel a n t rest ∅).map Prod.fst)
            (trans a sid c) with _ | b
        · rw [hany] at h
          exact absurd h (by simp)
        · have hany' : anyLoop
              (fun t => (testFuel a m t rest ∅).map Prod.fst)
              (trans a sid c) = some b := by
            refine anyLoop_mono _ _ _ (fun t _ r' hr => ?_) _ hany
            rcases ht : testFuel a n t rest ∅ with _ | p
            · rw [ht] at hr; exact absurd hr (by simp)
            · rw [ht] at hr
              rw [ih m t rest ∅ p hnm ht]
              exact hr
          rw [hany] at h
          rw [hany']
          rcases b with _ | _
          · exact epsLoop_mono _ _ _
              (fun t _ w r' hr => ih m t (c :: rest) w r' hnm hr) _ _ h
          · exact h

theorem testFuel_agree (a : Arena) (f1 f2 sid : Nat) (x : List Char)
    (v : Finset Nat) (r1 r2 : Bool × Finset Nat)
    (h1 : testFuel a f1 sid x v = some r1)
    (h2 : testFuel a f2 sid x v = some r2) : r1 = r2 := by
  rcases Nat.le_total f1 f2 with hle | hle
  · have := testFuel_mono a f1 f2 sid x v r1 hle h1
    rw [this] at h2
    exact (Option.some_inj.mp h2).symm ▸ rfl
  · have := testFuel_mono a f2 f1 sid x v r2 hle h2
    rw [this] at h1
    exact (Option.some_inj.mp h1).symm ▸ rfl

theorem epsLoop_grow (f : Nat → Finset Nat → Option (Bool × Finset Nat))
    (l : List Nat) (hgrow : ∀ t w b w', f t w = some (b, w') → w ⊆ w')
    (v : Finset Nat) (b : Bool) (v' : Finset Nat) :
    epsLoop f l v = some (b, v') → v ⊆ v' := by
  induction l generalizing v with
  | nil =>
    intro hl
    rw [epsLoop] at hl
    obtain ⟨rfl, rfl⟩ : false = b ∧ v = v' := by
      have := Option.some_inj.mp hl
      exact ⟨congrArg Prod.fst this, congrArg Prod.snd this⟩
    exact Finset.Subset.refl v
  | cons t ts ih =>
    intro hl
    rcases hf : f t v with _ | ⟨b0, w'⟩
    · rw [epsLoop, hf] at hl; exact absurd hl (by simp)
    · have hsub := hgrow t v b0 w' hf
      rcases b0 with _ | _
      · rw [epsLoop, hf] at hl
        exact hsub.trans (ih w' hl)
      · rw [epsLoop, hf] at hl
        have := Option.some_inj.mp hl
        have hv' : w' = v' := congrArg Prod.snd this
        exact hv' ▸ hsub

theorem testFuel_grow (a : Arena) :
    ∀ fuel sid x v b v', testFuel a fuel sid x v = some (b, v') → v ⊆ v' := by
  intro fuel
  induction fuel with
  | zero => intro sid x v b v' h; exact absurd h (by simp [testFuel_zero])
  | succ n ih =>
    intro sid x v b v' h
    by_cases hv : sid ∈ v
    · rw [testFuel_succ_mem _ _ _ _ _ hv] at h
      have := Option.some_inj.mp h
      have hv' : v = v' := congrArg Prod.snd this
      exact hv' ▸ Finset.Subset.refl v
    · have hself : v ⊆ insert sid v := Finset.subset_insert _ _
      cases x with
      | nil =>
        by_cases hacc : (getState a sid).accepting = true
        · rw [testFuel_succ_nil_acc _ _ _ _ hv hacc] at h
          have := Option.some_inj.mp h
          have hv' : insert sid v = v' := congrArg Prod.snd this
          exact hv' ▸ hself
        · have hacc' : (getState a sid).accepting = false := by
            simpa using hacc
          rw [testFuel_succ_nil_eps _ _ _ _ hv hacc'] at h
          exact hself.trans
            (epsLoop_grow _ _ (fun t w b0 w0 hw => ih t [] w b0 w0 hw) _ _ _ h)
      | cons c rest =>
        rw [testFuel_succ_cons _ _ _ _ _ _ hv] at h
        rcases hany : anyLoop
            (fun t => (testFuel a n t rest ∅).map Prod.fst)
            (trans a sid c) with _ | bb
        · rw [hany] at h; exact absurd h (by simp)
        · rw [hany] at h
          rcases bb with _ | _
          · exact hself.trans
              (epsLoop_grow _ _
                (fun t w b0 w0 hw => ih t (c :: rest) w b0 w0 hw) _ _ _ h)
          · have := Option.some_inj.mp h
            have hv' : insert sid v = v' := congrArg Prod.snd this
            exact hv' ▸ hself

theorem mem_foldr_insert (l : List Nat) (s : Finset Nat) (x : Nat) :
    x ∈ l.foldr (fun y acc => insert y acc) s ↔ x ∈ l ∨ x ∈ s := by
  induction l with
  | nil => simp
  | cons y ys ih =>
    simp only [List.foldr_cons, Finset.mem_insert, ih, List.mem_cons]
    tauto

theorem mem_flatTargets (m : List (Char × List Nat)) (x : Nat) :
    x ∈ m.foldr (fun p acc => p.2.foldr (fun y acc2 => insert y acc2) acc)
        (∅ : Finset Nat) ↔
      ∃ p ∈ m, x ∈ p.2 := by
  induction m with
  | nil => simp
  | cons p rest ih =>
    simp only [List.foldr_cons, mem_foldr_insert, ih, List.mem_cons]
    constructor
    · rintro (h | ⟨q, hq, hx⟩)
      · exact ⟨p, Or.inl rfl, h⟩
      · exact ⟨q, Or.inr hq, hx⟩
    · rintro ⟨q, hq | hq, hx⟩
      · exact Or.inl (hq ▸ hx)
      · exact Or.inr ⟨q, hq, hx⟩

theorem mem_stateTargets (s : State) (x : Nat) :
    x ∈ stateTargets s ↔ ∃ p ∈ s.transitionMap, x ∈ p.2 :=
  mem_flatTargets s.transitionMap x

theorem mem_targetsSet (a : Arena) (x : Nat) :
    x ∈ targetsSet a ↔ ∃ s ∈ a, x ∈ stateTargets s := by
  induction a with
  | nil => simp [targetsSet]
  | cons s rest ih =>
    simp only [targetsSet, List.foldr_cons, Finset.mem_union, List.mem_cons]
    rw [targetsSet] at ih
    constructor
    · rintro (h | h)
      · exact ⟨s, Or.inl rfl, h⟩
      · obtain ⟨u, hu, hx⟩ := ih.mp h
        exact ⟨u, Or.inr hu, hx⟩
    · rintro ⟨u, hu | hu, hx⟩
      · exact Or.inl (hu ▸ hx)
      · exact Or.inr (ih.mpr ⟨u, hu, hx⟩)

theorem mem_mapGet (m : List (Char × List Nat)) (c : Char) (t : Nat)
    (h : t ∈ mapGet m c) : ∃ p ∈ m, t ∈ p.2 := by
  induction m with
  | nil => simp [mapGet] at h
  | cons p rest ih =>
    rw [mapGet] at h
    by_cases hp : p.1 = c
    · rw [if_pos hp] at h
      exact ⟨p, by simp, h⟩
    · rw [if_neg hp] at h
      obtain ⟨q, hq, hx⟩ := ih h
      exact ⟨q, by simp [hq], hx⟩

theorem mem_trans_targets (a : Arena) (sid : Nat) (c : Char) (t : Nat)
    (h : t ∈ trans a sid c) : t ∈ targetsSet a := by
  by_cases hlt : sid < a.length
  · have hget : getState a sid ∈ a := by
      rw [getState, List.getD_eq_getElem?_getD, List.getElem?_eq_getElem hlt]
      exact List.getElem_mem _
    obtain ⟨p, hp, ht⟩ :=
      mem_mapGet (getState a sid).transitionMap c t h
    exact (mem_targetsSet a t).mpr
      ⟨getState a sid, hget, (mem_stateTargets _ t).mpr ⟨p, hp, ht⟩⟩
  · rw [trans_oob _ _ _ (Nat.le_of_not_lt hlt)] at h
    simp at h

theorem card_step (T : Finset Nat) (sid t : Nat) (v w : Finset Nat)
    (hsid : sid ∉ v) (ht : t ∈ T) (hw : insert sid v ⊆ w) :
    ((insert t T) \ w).card + 1 ≤ ((insert sid T) \ v).card := by
  have hsub : (insert t T) \ w ⊆ ((insert sid T) \ v).erase sid := by
    intro x hx
    rcases Finset.mem_sdiff.mp hx with ⟨hxT, hxw⟩
    have hxT' : x ∈ T := by
      rcases Finset.mem_insert.mp hxT with h | h
      · exact h ▸ ht
      · exact h
    have hxs : x ∉ insert sid v := fun hc => hxw (hw hc)
    have hxsid : x ≠ sid := fun hc => hxs (hc ▸ Finset.mem_insert_self _ _)
    have hxv : x ∉ v := fun hc => hxs (Finset.mem_insert_of_mem hc)
    exact Finset.mem_erase.mpr
      ⟨hxsid, Finset.mem_sdiff.mpr ⟨Finset.mem_insert_of_mem hxT', hxv⟩⟩
  have hmem : sid ∈ (insert sid T) \ v :=
    Finset.mem_sdiff.mpr ⟨Finset.mem_insert_self _ _, hsid⟩
  have h1 := Finset.card_le_card hsub
  have h2 := Finset.card_erase_of_mem hmem
  have h3 : 0 < ((insert sid T) \ v).card := Finset.card_pos.mpr ⟨sid, hmem⟩
  omega

theorem anyLoop_isSome (f : Nat → Option Bool) (l : List Nat)
    (h : ∀ t ∈ l, ∃ r, f t = some r) : ∃ b, anyLoop f l = some b := by
  induction l with
  | nil => exact ⟨false, rfl⟩
  | cons t ts ih =>
    obtain ⟨r, hr⟩ := h t (by simp)
    rcases r with _ | _
    · obtain ⟨b, hb⟩ := ih (fun u hu => h u (by simp [hu]))
      exact ⟨b, by rw [anyLoop, hr]; exact hb⟩
    · exact ⟨true, by rw [anyLoop, hr]⟩

theorem epsLoop_isSome (f : Nat → Finset Nat → Option (Bool × Finset Nat))
    (l : List Nat) (v0 : Finset Nat)
    (hgrow : ∀ t w b w', f t w = some (b, w') → w ⊆ w')
    (h : ∀ t ∈ l, ∀ w, v0 ⊆ w → ∃ r, f t w = some r) :
    ∀ w, v0 ⊆ w → ∃ r, epsLoop f l w = some r := by
  induction l with
  | nil => intro w _; exact ⟨(false, w), rfl⟩
  | cons t ts ih =>
    intro w hw
    obtain ⟨⟨b, w'⟩, hr⟩ := h t (by simp) w hw
    rcases b with _ | _
    · obtain ⟨r, hrr⟩ := ih (fun u hu w2 hw2 => h u (by simp [hu]) w2 hw2)
        w' (hw.trans (hgrow _ _ _ _ hr))
      exact ⟨r, by rw [epsLoop, hr]; exact hrr⟩
    · exact ⟨(true, w'), by rw [epsLoop, hr]⟩

theorem testFuel_isSome (a : Arena) :
    ∀ fuel sid x v, fuelNeed a sid x v ≤ fuel →
      ∃ r, testFuel a fuel sid x v = some r := by
  intro fuel
  induction fuel with
  | zero =>
    intro sid x v h
    exfalso
    rw [fuelNeed] at h
    omega
  | succ n ih =>
    intro sid x v hle
    by_cases hv : sid ∈ v
    · exact ⟨(false, v), testFuel_succ_mem _ _ _ _ _ hv⟩
    · have hepsBound : ∀ xx : List Char, xx.length = x.length →
          ∀ t ∈ trans a sid EPSILON, ∀ w, insert sid v ⊆ w →
            fuelNeed a t xx w ≤ n := by
        intro xx hxx t ht w hw
        have htT := mem_trans_targets a sid EPSILON t ht
        have hcard := card_step (targetsSet a) sid t v w hv htT hw
        rw [fuelNeed] at hle ⊢
        rw [hxx]
        omega
      cases x with
      | nil =>
        by_cases hacc : (getState a sid).accepting = true
        · exact ⟨(true, insert sid v), testFuel_succ_nil_acc _ _ _ _ hv hacc⟩
        · have hacc' : (getState a sid).accepting = false := by simpa using hacc
          obtain ⟨r, hr⟩ := epsLoop_isSome
            (fun t w => testFuel a n t [] w) (trans a sid EPSILON)
            (insert sid v)
            (fun t w b w' hw => testFuel_grow a n t [] w b w' hw)
            (fun t ht w hw => ih t [] w (hepsBound [] rfl t ht w hw))
            (insert sid v) (Finset.Subset.refl _)
          exact ⟨r, by rw [testFuel_succ_nil_eps _ _ _ _ hv hacc']; exact hr⟩
      | cons c rest =>
        have hsymBound : ∀ t, fuelNeed a t rest ∅ ≤ n := by
          intro t
          have h1 : ((insert t (targetsSet a)) \ ∅).card ≤
              (targetsSet a).card + 1 := by
            rw [Finset.sdiff_empty]
            exact Finset.card_insert_le _ _
          rw [fuelNeed] at hle ⊢
          simp only [List.length_cons] at hle
          have h2 : (rest.length + 1) * ((targetsSet a).card + 2) =
              rest.length * ((targetsSet a).card + 2) +
                ((targetsSet a).card + 2) := by ring
          omega
        obtain ⟨b, hb⟩ := anyLoop_isSome
          (fun t => (testFuel a n t rest ∅).map Prod.fst) (trans a sid c)
          (fun t _ => by
            obtain ⟨⟨b0, w0⟩, h0⟩ := ih t rest ∅ (hsymBound t)
            exact ⟨b0, by simp [h0]⟩)
        rcases b with _ | _
        · obtain ⟨r, hr⟩ := epsLoop_isSome
            (fun t w => testFuel a n t (c :: rest) w) (trans a sid EPSILON)
            (insert sid v)
            (fun t w b w' hw => testFuel_grow a n t (c :: rest) w b w' hw)
            (fun t ht w hw =>
              ih t (c :: rest) w (hepsBound (c :: rest) rfl t ht w hw))
            (insert sid v) (Finset.Subset.refl _)
          exact ⟨r, by rw [testFuel_succ_cons _ _ _ _ _ _ hv, hb]; exact hr⟩
        · exact ⟨(true, insert sid v), by
            rw [testFuel_succ_cons _ _ _ _ _ _ hv, hb]⟩

theorem stest_eq (a : Arena) (sid : Nat) (x : List Char) (f : Nat) (b : Bool)
    (w : Finset Nat) (h : testFuel a f sid x ∅ = some (b, w)) :
    stest a sid x = b := by
  obtain ⟨⟨b0, w0⟩, h0⟩ :=
    testFuel_isSome a (fuelNeed a sid x ∅) sid x ∅ (Nat.le_refl _)
  have hagree := testFuel_agree a f _ sid x ∅ _ _ h h0
  rw [stest, h0]
  exact (congrArg Prod.fst hagree).symm

theorem stest_some (a : Arena) (sid : Nat) (x : List Char) :
    ∃ w, testFuel a (fuelNeed a sid x ∅) sid x ∅ = some (stest a sid x, w) := by
  obtain ⟨⟨b0, w0⟩, h0⟩ :=
    testFuel_isSome a (fuelNeed a sid x ∅) sid x ∅ (Nat.le_refl _)
  have : stest a sid x = b0 := stest_eq a sid x _ b0 w0 h0
  exact ⟨w0, this ▸ h0⟩

/-! ## Clean path semantics of the automaton graph

`Run a s x u`: starting at state `s` one can reach state `u` consuming
exactly `x`, following stored transitions, where an entry under the
`EPSILON` key may be taken silently (an epsilon transition) and any entry
under key `c` may be taken consuming the input character `c` (this includes
the `EPSILON` key when the input character is the sentinel itself, exactly
as the matcher looks symbols up in the same table). -/

inductive Run (a : Arena) : Nat → List Char → Nat → Prop where
  | refl (s : Nat) : Run a s [] s
  | eps {s t u : Nat} {x : List Char} :
      t ∈ trans a s EPSILON → Run a t x u → Run a s x u
  | symb {s t u : Nat} {c : Char} {rest : List Char} :
      t ∈ trans a s c → Run a t rest u → Run a s (c :: rest) u

/-- The automaton accepts `x` from `s`: some run ends in an accepting
state. -/
def Accepts (a : Arena) (sid : Nat) (x : List Char) : Prop :=
  ∃ u, Run a sid x u ∧ (getState a u).accepting = true

theorem run_append (a : Arena) {s u w : Nat} {x y : List Char}
    (h1 : Run a s x u) (h2 : Run a u y w) : Run a s (x ++ y) w := by
  induction h1 with
  | refl s => simpa using h2
  | eps ht _ ih => exact Run.eps ht (ih h2)
  | symb ht _ ih => exact Run.symb ht (ih h2)

/-- An epsilon-only path all of whose states avoid the set `v`. -/
inductive EpsPathA (a : Arena) (v : Finset Nat) : Nat → Nat → Prop where
  | refl {s : Nat} : s ∉ v → EpsPathA a v s s
  | step {s t u : Nat} : s ∉ v → t ∈ trans a s EPSILON → EpsPathA a v t u →
      EpsPathA a v s u

theorem epsPathA_run (a : Arena) {v : Finset Nat} {s u : Nat}
    (h : EpsPathA a v s u) : Run a s [] u := by
  induction h with
  | refl _ => exact Run.refl _
  | step _ ht _ ih => exact Run.eps ht ih

theorem epsPathA_anti (a : Arena) {v v' : Finset Nat} {s u : Nat}
    (hsub : v' ⊆ v) (h : EpsPathA a v s u) : EpsPathA a v' s u := by
  induction h with
  | refl hs => exact EpsPathA.refl (fun hc => hs (hsub hc))
  | step hs ht _ ih => exact EpsPathA.step (fun hc => hs (hsub hc)) ht ih

theorem run_nil_path (a : Arena) {s u : Nat} (h : Run a s [] u) :
    EpsPathA a ∅ s u := by
  generalize hx : ([] : List Char) = x at h
  induction h with
  | refl _ => exact EpsPathA.refl (by simp)
  | eps ht _ ih => exact EpsPathA.step (by simp) ht (ih hx)
  | symb ht hrun _ => exact absurd hx (by simp)

theorem run_cons_split (a : Arena) {s u : Nat} {c : Char} {rest : List Char}
    (h : Run a s (c :: rest) u) :
    ∃ w t, EpsPathA a ∅ s w ∧ t ∈ trans a w c ∧ Run a t rest u := by
  generalize hx : c :: rest = x at h
  induction h with
  | refl _ => exact absurd hx (by simp)
  | eps ht _ ih =>
    obtain ⟨w, t, hp, htr, hr⟩ := ih hx
    exact ⟨w, t, EpsPathA.step (by simp) ht hp, htr, hr⟩
  | symb ht hrun _ =>
    injection hx with h1 h2
    subst h1
    subst h2
    exact ⟨_, _, EpsPathA.refl (by simp), ht, hrun⟩

/-- Success of a single exploration step at a state for the residual input:
the empty input succeeds at an accepting state, a non-empty input succeeds
when some transition on its first symbol leads to a state accepting the
rest (with a fresh visited set, i.e. plain `stest`). -/
def GoodAt (a : Arena) (u : Nat) (x : List Char) : Prop :=
  match x with
  | [] => (getState a u).accepting = true
  | c :: rest => ∃ t ∈ trans a u c, stest a t rest = true

/-! ## Soundness of a `true` verdict -/

theorem anyLoop_true (f : Nat → Option Bool) (l : List Nat)
    (h : anyLoop f l = some true) : ∃ t ∈ l, f t = some true := by
  induction l with
  | nil => exact absurd h (by simp [anyLoop])
  | cons t ts ih =>
    rcases hf : f t with _ | b
    · rw [anyLoop, hf] at h; exact absurd h (by simp)
    · rcases b with _ | _
      · rw [anyLoop, hf] at h
        obtain ⟨u, hu, hfu⟩ := ih h
        exact ⟨u, by simp [hu], hfu⟩
      · exact ⟨t, by simp, hf⟩

theorem anyLoop_false (f : Nat → Option Bool) (l : List Nat)
    (h : anyLoop f l = some false) : ∀ t ∈ l, f t = some false := by
  induction l with
  | nil => simp
  | cons t ts ih =>
    rcases hf : f t with _ | b
    · rw [anyLoop, hf] at h; exact absurd h (by simp)
    · rcases b with _ | _
      · rw [anyLoop, hf] at h
        intro u hu
        rcases List.mem_cons.mp hu with rfl | hu'
        · exact hf
        · exact ih h u hu'
      · rw [anyLoop, hf] at h
        exact absurd h (by simp)

theorem epsLoop_true (f : Nat → Finset Nat → Option (Bool × Finset Nat))
    (l : List Nat)
    (hgrow : ∀ t w b w', f t w = some (b, w') → w ⊆ w') :
    ∀ w0 v', epsLoop f l w0 = some (true, v') →
      ∃ t ∈ l, ∃ w, w0 ⊆ w ∧ f t w = some (true, v') := by
  induction l with
  | nil => intro w0 v' h; exact absurd h (by simp [epsLoop])
  | cons t ts ih =>
    intro w0 v' h
    rcases hf : f t w0 with _ | ⟨b, w1⟩
    · rw [epsLoop, hf] at h; exact absurd h (by simp)
    · rcases b with _ | _
      · rw [epsLoop, hf] at h
        obtain ⟨u, hu, w, hw, hfu⟩ := ih w1 v' h
        exact ⟨u, by simp [hu], w, (hgrow t w0 false w1 hf).trans hw, hfu⟩
      · rw [epsLoop, hf] at h
        have := Option.some_inj.mp h
        exact ⟨t, by simp, w0, Finset.Subset.refl _, by rw [hf, this]⟩

theorem testFuel_true_path (a : Arena) :
    ∀ fuel sid x v v', testFuel a fuel sid x v = some (true, v') →
      ∃ u, EpsPathA a v sid u ∧ GoodAt a u x := by
  intro fuel
  induction fuel with
  | zero => intro sid x v v' h; exact absurd h (by simp [testFuel_zero])
  | succ n ih =>
    intro sid x v v' h
    by_cases hv : sid ∈ v
    · rw [testFuel_succ_mem _ _ _ _ _ hv] at h
      exact absurd (congrArg Prod.fst (Option.some_inj.mp h)) (by simp)
    · cases x with
      | nil =>
        by_cases hacc : (getState a sid).accepting = true
        · exact ⟨sid, EpsPathA.refl hv, hacc⟩
        · have hacc' : (getState a sid).accepting = false := by simpa using hacc
          rw [testFuel_succ_nil_eps _ _ _ _ hv hacc'] at h
          obtain ⟨t, ht, w, hw, hcall⟩ := epsLoop_true _ _
            (fun t w b w' hc => testFuel_grow a n t [] w b w' hc) _ _ h
          obtain ⟨u, hpath, hgood⟩ := ih t [] w v' hcall
          have hvw : v ⊆ w := (Finset.subset_insert sid v).trans hw
          exact ⟨u, EpsPathA.step hv ht (epsPathA_anti a hvw hpath), hgood⟩
      | cons c rest =>
        rw [testFuel_succ_cons _ _ _ _ _ _ hv] at h
        rcases hany : anyLoop
            (fun t => (testFuel a n t rest ∅).map Prod.fst)
            (trans a sid c) with _ | b
        · rw [hany] at h; exact absurd h (by simp)
        · rw [hany] at h
          rcases b with _ | _
          · obtain ⟨t, ht, w, hw, hcall⟩ := epsLoop_true _ _
              (fun t w b w' hc => testFuel_grow a n t (c :: rest) w b w' hc)
              _ _ h
            obtain ⟨u, hpath, hgood⟩ := ih t (c :: rest) w v' hcall
            have hvw : v ⊆ w := (Finset.subset_insert sid v).trans hw
            exact ⟨u, EpsPathA.step hv ht (epsPathA_anti a hvw hpath), hgood⟩
          · obtain ⟨t, ht, hcall⟩ := anyLoop_true _ _ hany
            rcases hres : testFuel a n t rest ∅ with _ | ⟨b0, w0⟩
            · rw [hres] at hcall; exact absurd hcall (by simp)
            · rw [hres] at hcall
              have hb0 : b0 = true := by
                have := Option.some_inj.mp hcall
                simpa using this
              subst hb0
              exact ⟨sid, EpsPathA.refl hv,
                ⟨t, ht, stest_eq a t rest n true w0 hres⟩⟩

/-! ## The failure invariant of the depth-first exploration -/

/-- When a call returns `false` with final visited set `v'`, every state
newly added to the visited set has been fully explored: it is not good for
the current residual input, and all of its epsilon successors have been
recorded as visited too. -/
structure FalseInv (a : Arena) (x : List Char) (v v' : Finset Nat) : Prop where
  sub : v ⊆ v'
  notGood : ∀ u ∈ v', u ∉ v → ¬ GoodAt a u x
  closed : ∀ u ∈ v', u ∉ v → ∀ t ∈ trans a u EPSILON, t ∈ v'

theorem FalseInv.comp {a : Arena} {x : List Char} {v w v' : Finset Nat}
    (h1 : FalseInv a x v w) (h2 : FalseInv a x w v') : FalseInv a x v v' where
  sub := h1.sub.trans h2.sub
  notGood := by
    intro u hu hnv
    by_cases hw : u ∈ w
    · exact h1.notGood u hw hnv
    · exact h2.notGood u hu hw
  closed := by
    intro u hu hnv t ht
    by_cases hw : u ∈ w
    · exact h2.sub (h1.closed u hw hnv t ht)
    · exact h2.closed u hu hw t ht

theorem FalseInv.triv {a : Arena} {x : List Char} {v : Finset Nat} :
    FalseInv a x v v where
  sub := Finset.Subset.refl v
  notGood := fun _ hu hnv => absurd hu hnv
  closed := fun _ hu hnv => absurd hu hnv

theorem epsLoop_false_inv (a : Arena) (x : List Char)
    (f : Nat → Finset Nat → Option (Bool × Finset Nat)) (l : List Nat)
    (hf : ∀ t w w', f t w = some (false, w') → FalseInv a x w w' ∧ t ∈ w') :
    ∀ w0 v', epsLoop f l w0 = some (false, v') →
      FalseInv a x w0 v' ∧ ∀ t ∈ l, t ∈ v' := by
  induction l with
  | nil =>
    intro w0 v' h
    rw [epsLoop] at h
    have hv : w0 = v' := congrArg Prod.snd (Option.some_inj.mp h)
    subst hv
    exact ⟨FalseInv.triv, by simp⟩
  | cons t ts ih =>
    intro w0 v' h
    rcases hcall : f t w0 with _ | ⟨b, w1⟩
    · rw [epsLoop, hcall] at h; exact absurd h (by simp)
    · rcases b with _ | _
      · rw [epsLoop, hcall] at h
        obtain ⟨hinv1, htw⟩ := hf t w0 w1 hcall
        obtain ⟨hinv2, hts⟩ := ih w1 v' h
        refine ⟨hinv1.comp hinv2, ?_⟩
        intro u hu
        rcases List.mem_cons.mp hu with rfl | hu'
        · exact hinv2.sub htw
        · exact hts u hu'
      · rw [epsLoop, hcall] at h
        exact absurd (congrArg Prod.fst (Option.some_inj.mp h)) (by simp)

theorem testFuel_false_inv (a : Arena) :
    ∀ fuel sid x v v', testFuel a fuel sid x v = some (false, v') →
      FalseInv a x v v' ∧ sid ∈ v' := by
  intro fuel
  induction fuel with
  | zero => intro sid x v v' h; exact absurd h (by simp [testFuel_zero])
  | succ n ih =>
    intro sid x v v' h
    by_cases hv : sid ∈ v
    · rw [testFuel_succ_mem _ _ _ _ _ hv] at h
      have hv' : v = v' := congrArg Prod.snd (Option.some_inj.mp h)
      subst hv'
      exact ⟨FalseInv.triv, hv⟩
    · have hstep : ∀ xx : List Char, ¬ GoodAt a sid xx →
          epsLoop (fun t w => testFuel a n t xx w) (trans a sid EPSILON)
            (insert sid v) = some (false, v') →
          FalseInv a xx v v' ∧ sid ∈ v' := by
        intro xx hgood hloop
        obtain ⟨hinv, htargets⟩ := epsLoop_false_inv a xx _ _
          (fun t w w' hc => ih t xx w w' hc) _ _ hloop
        have hsidv' : sid ∈ v' := hinv.sub (Finset.mem_insert_self _ _)
        refine ⟨⟨(Finset.subset_insert sid v).trans hinv.sub, ?_, ?_⟩, hsidv'⟩
        · intro u hu hnv
          by_cases hus : u = sid
          · exact hus ▸ hgood
          · have : u ∉ insert sid v := by
              simp only [Finset.mem_insert]
              tauto
            exact hinv.notGood u hu this
        · intro u hu hnv t ht
          by_cases hus : u = sid
          · subst hus
            exact htargets t ht
          · have : u ∉ insert sid v := by
              simp only [Finset.mem_insert]
              tauto
            exact hinv.closed u hu this t ht
      cases x with
      | nil =>
        by_cases hacc : (getState a sid).accepting = true
        · rw [testFuel_succ_nil_acc _ _ _ _ hv hacc] at h
          exact absurd (congrArg Prod.fst (Option.some_inj.mp h)) (by simp)
        · have hacc' : (getState a sid).accepting = false := by simpa using hacc
          rw [testFuel_succ_nil_eps _ _ _ _ hv hacc'] at h
          exact hstep [] (by simpa [GoodAt] using hacc) h
      | cons c rest =>
        rw [testFuel_succ_cons _ _ _ _ _ _ hv] at h
        rcases hany : anyLoop
            (fun t => (testFuel a n t rest ∅).map Prod.fst)
            (trans a sid c) with _ | b
        · rw [hany] at h; exact absurd h (by simp)
        · rw [hany] at h
          rcases b with _ | _
          · have hgood : ¬ GoodAt a sid (c :: rest) := by
              rintro ⟨t, ht, hst⟩
              have hcall := anyLoop_false _ _ hany t ht
              rcases hres : testFuel a n t rest ∅ with _ | ⟨b0, w0⟩
              · rw [hres] at hcall; exact absurd hcall (by simp)
              · rw [hres] at hcall
                have hb0 : b0 = false := by
                  have := Option.some_inj.mp hcall
                  simpa using this
                subst hb0
                rw [stest_eq a t rest n false w0 hres] at hst
                exact absurd hst (by simp)
            exact hstep (c :: rest) hgood h
          · exact absurd (congrArg Prod.fst (Option.some_inj.mp h)) (by simp)

theorem FalseInv.path_mem {a : Arena} {x : List Char} {v v' : Finset Nat}
    (h : FalseInv a x v v') :
    ∀ s u, s ∈ v' → EpsPathA a v s u → u ∈ v' := by
  intro s u hs hp
  induction hp with
  | refl _ => exact hs
  | step hnv ht _ ih => exact ih (h.closed _ hs hnv _ ht)

/-! ## The matcher decides exactly the path semantics -/

theorem stest_true_accepts (a : Arena) (x : List Char)
    (IH : ∀ y t, y.length < x.length → stest a t y = true → Accepts a t y)
    (sid : Nat) (h : stest a sid x = true) : Accepts a sid x := by
  obtain ⟨w, hw⟩ := stest_some a sid x
  rw [h] at hw
  obtain ⟨u, hpath, hgood⟩ := testFuel_true_path a _ sid x ∅ w hw
  have hrun0 : Run a sid [] u := epsPathA_run a hpath
  cases x with
  | nil => exact ⟨u, hrun0, hgood⟩
  | cons c rest =>
    obtain ⟨t, ht, hstest⟩ := hgood
    obtain ⟨u2, hrun2, hacc2⟩ := IH rest t (by simp) hstest
    refine ⟨u2, ?_, hacc2⟩
    have := run_append a hrun0 (Run.symb ht hrun2)
    simpa using this

theorem accepts_stest_true (a : Arena) (x : List Char)
    (IH : ∀ y t, y.length < x.length → Accepts a t y → stest a t y = true)
    (sid : Nat) (h : Accepts a sid x) : stest a sid x = true := by
  by_contra hfalse
  have hf : stest a sid x = false := by
    cases hb : stest a sid x
    · rfl
    · exact absurd hb hfalse
  obtain ⟨w, hw⟩ := stest_some a sid x
  rw [hf] at hw
  obtain ⟨hinv, hsid⟩ := testFuel_false_inv a _ sid x ∅ w hw
  obtain ⟨u, hrun, hacc⟩ := h
  cases x with
  | nil =>
    have hpath : EpsPathA a ∅ sid u := run_nil_path a hrun
    have hu : u ∈ w := hinv.path_mem sid u hsid hpath
    exact hinv.notGood u hu (by simp) hacc
  | cons c rest =>
    obtain ⟨m, t, hpath, ht, hrest⟩ := run_cons_split a hrun
    have hm : m ∈ w := hinv.path_mem sid m hsid hpath
    have hgood : GoodAt a m (c :: rest) :=
      ⟨t, ht, IH rest t (by simp) ⟨u, hrest, hacc⟩⟩
    exact hinv.notGood m hm (by simp) hgood

theorem stest_iff_accepts (a : Arena) (sid : Nat) (x : List Char) :
    stest a sid x = true ↔ Accepts a sid x := by
  suffices h : ∀ n x sid, x.length ≤ n →
      (stest a sid x = true ↔ Accepts a sid x) from
    h x.length x sid (Nat.le_refl _)
  intro n
  induction n with
  | zero =>
    intro x sid hlen
    constructor
    · exact stest_true_accepts a x (fun y t hy _ => absurd hy (by omega)) sid
    · exact accepts_stest_true a x (fun y t hy _ => absurd hy (by omega)) sid
  | succ n ihn =>
    intro x sid hlen
    constructor
    · refine stest_true_accepts a x (fun y t hy hst => ?_) sid
      exact (ihn y t (by omega)).mp hst
    · refine accepts_stest_true a x (fun y t hy hac => ?_) sid
      exact (ihn y t (by omega)).mpr hac

theorem test_iff_accepts (a : Arena) (n : NFA) (x : List Char) :
    NFA.test a n x = true ↔ Accepts a n.inState x :=
  stest_iff_accepts a n.inState x

/-! ## Structural invariants of combinator-built fragments -/

/-- A fragment occupying the region `[lo, hi)` of the arena: entry and exit
lie in the region, all transitions from region states stay in the region,
and the exit is the unique accepting state of the region. -/
structure Frag (a : Arena) (lo hi : Nat) (n : NFA) : Prop where
  hi_le : hi ≤ a.length
  in_lo : lo ≤ n.inState
  in_hi : n.inState < hi
  out_lo : lo ≤ n.outState
  out_hi : n.outState < hi
  in_ne_out : n.inState ≠ n.outState
  closed : ∀ k, lo ≤ k → k < hi → ∀ c, ∀ t ∈ trans a k c, lo ≤ t ∧ t < hi
  acc_iff : ∀ k, lo ≤ k → k < hi →
    ((getState a k).accepting = true ↔ k = n.outState)

/-- Result of running a builder on arena `a0`: the old states are untouched
and the new fragment occupies exactly the freshly allocated region. -/
structure Built (a0 a1 : Arena) (n : NFA) : Prop where
  le : a0.length ≤ a1.length
  frozen : ∀ k, k < a0.length → getState a1 k = getState a0 k
  frag : Frag a1 a0.length a1.length n

theorem Frag.transport {a a' : Arena} {lo hi : Nat} {n : NFA}
    (h : Frag a lo hi n) (heq : ∀ k, k < hi → getState a' k = getState a k)
    (hle : hi ≤ a'.length) : Frag a' lo hi n where
  hi_le := hle
  in_lo := h.in_lo
  in_hi := h.in_hi
  out_lo := h.out_lo
  out_hi := h.out_hi
  in_ne_out := h.in_ne_out
  closed := by
    intro k hk1 hk2 c t ht
    rw [trans, heq k hk2] at ht
    exact h.closed k hk1 hk2 c t ht
  acc_iff := by
    intro k hk1 hk2
    rw [heq k hk2]
    exact h.acc_iff k hk1 hk2

theorem char_def (a : Arena) (c : Char) :
    char a c =
      (addTransition ((a ++ [⟨false, []⟩]) ++ [⟨true, []⟩]) a.length c
        (a.length + 1), ⟨a.length, a.length + 1⟩) := by
  simp only [char, createState, List.length_append, List.length_cons,
    List.length_nil]

theorem char_fst (a : Arena) (c : Char) :
    (char a c).1 = addTransition ((a ++ [⟨false, []⟩]) ++ [⟨true, []⟩])
      a.length c (a.length + 1) := by
  rw [char_def]

theorem char_snd (a : Arena) (c : Char) :
    (char a c).2 = ⟨a.length, a.length + 1⟩ := by
  rw [char_def]

theorem char_length (a : Arena) (c : Char) :
    (char a c).1.length = a.length + 2 := by
  rw [char_fst, length_addTransition]
  simp

theorem getState_char_lt (a : Arena) (c : Char) (k : Nat)
    (hk : k < a.length) : getState (char a c).1 k = getState a k := by
  rw [char_fst, addTransition, getState_set_ne _ _ _ _ (by omega),
    getState_append_lt _ _ _ (by simp; omega),
    getState_append_lt _ _ _ hk]

theorem trans_char_in (a : Arena) (c c' : Char) :
    trans (char a c).1 a.length c' =
      if c' = c then [a.length + 1] else [] := by
  rw [char_fst, trans_addTransition]
  have hlen : a.length <
      ((a ++ [(⟨false, []⟩ : State)]) ++ [(⟨true, []⟩ : State)]).length := by
    simp
  have hbase : ∀ c0 : Char,
      trans ((a ++ [(⟨false, []⟩ : State)]) ++ [(⟨true, []⟩ : State)])
      a.length c0 = [] := by
    intro c0
    rw [trans_append_lt _ _ _ _ (by simp), trans_append_one]
    simp [State.getTransitionsForSymbol, mapGet]
  by_cases hc : c' = c
  · rw [if_pos ⟨rfl, hc, hlen⟩, hbase, if_pos hc]
    rfl
  · rw [if_neg (fun hcon => hc hcon.2.1), hbase, if_neg hc]

theorem trans_char_out (a : Arena) (c c' : Char) :
    trans (char a c).1 (a.length + 1) c' = [] := by
  rw [char_fst, trans_addTransition,
    if_neg (fun hcon : a.length + 1 = a.length ∧ _ => by omega),
    trans_append_one, if_pos (by simp)]
  simp [State.getTransitionsForSymbol, mapGet]

theorem acc_char_in (a : Arena) (c : Char) :
    (getState (char a c).1 a.length).accepting = false := by
  rw [char_fst, accepting_addTransition, accepting_append_one]
  rw [if_neg (by simp), accepting_append_one, if_pos rfl]

theorem acc_char_out (a : Arena) (c : Char) :
    (getState (char a c).1 (a.length + 1)).accepting = true := by
  rw [char_fst, accepting_addTransition, accepting_append_one,
    if_pos (by simp)]

theorem char_built (a : Arena) (c : Char) :
    Built a (char a c).1 (char a c).2 := by
  rw [char_snd]
  refine ⟨by rw [char_length]; omega, fun k hk => getState_char_lt a c k hk,
    ?_, ?_, ?_, ?_, ?_, ?_, ?_, ?_⟩
  · exact Nat.le_refl _
  · show a.length ≤ a.length
    exact Nat.le_refl _
  · rw [char_length]
    show a.length < a.length + 2
    omega
  · show a.length ≤ a.length + 1
    omega
  · rw [char_length]
    show a.length + 1 < a.length + 2
    omega
  · show a.length ≠ a.length + 1
    omega
  · intro k hk1 hk2 c' t ht
    rw [char_length] at hk2
    rw [char_length]
    rcases (by omega : k = a.length ∨ k = a.length + 1) with rfl | rfl
    · rw [trans_char_in] at ht
      by_cases hc : c' = c
      · rw [if_pos hc] at ht
        simp at ht
        omega
      · rw [if_neg hc] at ht
        simp at ht
    · rw [trans_char_out] at ht
      simp at ht
  · intro k hk1 hk2
    rw [char_length] at hk2
    show _ ↔ k = a.length + 1
    rcases (by omega : k = a.length ∨ k = a.length + 1) with rfl | rfl
    · rw [acc_char_in]
      simp
    · rw [acc_char_out]
      simp

theorem getState_addTransition_ne (a : Arena) (sid : Nat) (c : Char)
    (t : Nat) (j : Nat) (h : j ≠ sid) :
    getState (addTransition a sid c t) j = getState a j := by
  rw [addTransition, getState_set_ne _ _ _ _ h]

theorem getState_setAccepting_ne (a : Arena) (sid : Nat) (b : Bool)
    (j : Nat) (h : j ≠ sid) :
    getState (setAccepting a sid b) j = getState a j := by
  rw [setAccepting, getState_set_ne _ _ _ _ h]

theorem mem_trans_addTransition (a : Arena) (sid : Nat) (c0 : Char)
    (t0 : Nat) (j : Nat) (c : Char) (t : Nat)
    (ht : t ∈ trans (addTransition a sid c0 t0) j c) :
    t ∈ trans a j c ∨ (j = sid ∧ c = c0 ∧ t = t0) := by
  rw [trans_addTransition] at ht
  by_cases h : j = sid ∧ c = c0 ∧ sid < a.length
  · rw [if_pos h] at ht
    rcases List.mem_append.mp ht with h1 | h1
    · left
      rw [h.1, h.2.1]
      exact h1
    · right
      exact ⟨h.1, h.2.1, by simpa using h1⟩
  · rw [if_neg h] at ht
    exact Or.inl ht

theorem trans_le_addTransition (a : Arena) (sid : Nat) (c0 : Char)
    (t0 : Nat) (j : Nat) (c : Char) (t : Nat) (ht : t ∈ trans a j c) :
    t ∈ trans (addTransition a sid c0 t0) j c := by
  rw [trans_addTransition]
  by_cases h : j = sid ∧ c = c0 ∧ sid < a.length
  · rw [if_pos h]
    apply List.mem_append_left
    rw [← h.1, ← h.2.1]
    exact ht
  · rw [if_neg h]
    exact ht

theorem trans_le_setAccepting (a : Arena) (sid : Nat) (b : Bool) (j : Nat)
    (c : Char) (t : Nat) (ht : t ∈ trans a j c) :
    t ∈ trans (setAccepting a sid b) j c := by
  rw [trans_setAccepting]
  exact ht

theorem trans_le_append (a : Arena) (s : State) (j : Nat) (c : Char)
    (t : Nat) (ht : t ∈ trans a j c) : t ∈ trans (a ++ [s]) j c := by
  by_cases hk : j < a.length
  · rw [trans_append_lt _ _ _ _ hk]
    exact ht
  · rw [trans_oob _ _ _ (Nat.le_of_not_lt hk)] at ht
    simp at ht

theorem run_mono (a b : Arena)
    (hsub : ∀ s c, ∀ t ∈ trans a s c, t ∈ trans b s c) {s : Nat}
    {x : List Char} {u : Nat} (h : Run a s x u) : Run b s x u := by
  induction h with
  | refl _ => exact Run.refl _
  | eps ht _ ih => exact Run.eps (hsub _ _ _ ht) ih
  | symb ht _ ih => exact Run.symb (hsub _ _ _ ht) ih

/-- Adding an epsilon edge inside the fragment's region preserves the
builder invariant. -/
theorem Built.addEdge {a0 a1 : Arena} {f : NFA} (h : Built a0 a1 f)
    (src dst : Nat) (hs1 : a0.length ≤ src) (_hs2 : src < a1.length)
    (hd1 : a0.length ≤ dst) (hd2 : dst < a1.length) :
    Built a0 (addTransition a1 src EPSILON dst) f := by
  refine ⟨?_, ?_, ?_, ?_, ?_, ?_, ?_, ?_, ?_, ?_⟩
  · rw [length_addTransition]
    exact h.le
  · intro k hk
    rw [getState_addTransition_ne _ _ _ _ _ (by omega)]
    exact h.frozen k hk
  · rw [length_addTransition]
  · exact h.frag.in_lo
  · rw [length_addTransition]
    exact h.frag.in_hi
  · exact h.frag.out_lo
  · rw [length_addTransition]
    exact h.frag.out_hi
  · exact h.frag.in_ne_out
  · intro k hk1 hk2 c t ht
    rw [length_addTransition] at hk2 ⊢
    rcases mem_trans_addTransition _ _ _ _ _ _ _ ht with h1 | ⟨_, _, rfl⟩
    · exact h.frag.closed k hk1 hk2 c t h1
    · exact ⟨hd1, hd2⟩
  · intro k hk1 hk2
    rw [length_addTransition] at hk2
    rw [accepting_addTransition]
    exact h.frag.acc_iff k hk1 hk2

theorem rep_snd (a : Arena) (f : NFA) : (rep a f).2 = f := rfl

theorem rep_built (a0 a1 : Arena) (f : NFA) (h : Built a0 a1 f) :
    Built a0 (rep a1 f).1 f := by
  have h1 := h.addEdge f.inState f.outState h.frag.in_lo h.frag.in_hi
    h.frag.out_lo h.frag.out_hi
  have h2 := h1.addEdge f.outState f.inState
    h.frag.out_lo (by rw [length_addTransition]; exact h.frag.out_hi)
    h.frag.in_lo (by rw [length_addTransition]; exact h.frag.in_hi)
  exact h2

theorem plusRep_snd (a : Arena) (f : NFA) : (plusRep a f).2 = f := rfl

theorem plusRep_built (a0 a1 : Arena) (f : NFA) (h : Built a0 a1 f) :
    Built a0 (plusRep a1 f).1 f :=
  h.addEdge f.outState f.inState h.frag.out_lo h.frag.out_hi
    h.frag.in_lo h.frag.in_hi

theorem questionRep_snd (a : Arena) (f : NFA) : (questionRep a f).2 = f := rfl

theorem questionRep_built (a0 a1 : Arena) (f : NFA) (h : Built a0 a1 f) :
    Built a0 (questionRep a1 f).1 f :=
  h.addEdge f.inState f.outState h.frag.in_lo h.frag.in_hi
    h.frag.out_lo h.frag.out_hi

theorem concatPair_fst (a : Arena) (f g : NFA) :
    (concatPair a f g).1 =
      addTransition (setAccepting (setAccepting a f.outState false)
        g.outState true) f.outState EPSILON g.inState := rfl

theorem concatPair_snd (a : Arena) (f g : NFA) :
    (concatPair a f g).2 = ⟨f.inState, g.outState⟩ := rfl

theorem concatPair_length (a : Arena) (f g : NFA) :
    (concatPair a f g).1.length = a.length := by
  rw [concatPair_fst, length_addTransition, length_setAccepting,
    length_setAccepting]

theorem concatPair_built (a0 a1 a2 : Arena) (f g : NFA)
    (hf : Built a0 a1 f) (hg : Built a1 a2 g) :
    Built a0 (concatPair a2 f g).1 ⟨f.inState, g.outState⟩ := by
  have hf2 : Frag a2 a0.length a1.length f :=
    hf.frag.transport (fun k hk => hg.frozen k hk)
      (hf.frag.hi_le.trans hg.le)
  have hfo1 : a0.length ≤ f.outState := hf2.out_lo
  have hfo2 : f.outState < a1.length := hf2.out_hi
  have hfi2 : f.inState < a1.length := hf2.in_hi
  have hgo1 : a1.length ≤ g.outState := hg.frag.out_lo
  have hgo2 : g.outState < a2.length := hg.frag.out_hi
  have hgi1 : a1.length ≤ g.inState := hg.frag.in_lo
  have hgi2 : g.inState < a2.length := hg.frag.in_hi
  have h01 : a0.length ≤ a1.length := hf.le
  have h12 : a1.length ≤ a2.length := hg.le
  refine ⟨?_, ?_, ?_, ?_, ?_, ?_, ?_, ?_, ?_, ?_⟩
  · rw [concatPair_length]
    omega
  · intro k hk
    rw [concatPair_fst, getState_addTransition_ne _ _ _ _ _ (by omega),
      getState_setAccepting_ne _ _ _ _ (by omega),
      getState_setAccepting_ne _ _ _ _ (by omega)]
    rw [hg.frozen k (by omega), hf.frozen k hk]
  · rw [concatPair_length]
  · exact hf2.in_lo
  · rw [concatPair_length]
    show f.inState < a2.length
    omega
  · show a0.length ≤ g.outState
    omega
  · rw [concatPair_length]
    show g.outState < a2.length
    omega
  · show f.inState ≠ g.outState
    omega
  · intro k hk1 hk2 c t ht
    rw [concatPair_length] at hk2 ⊢
    rw [concatPair_fst] at ht
    rcases mem_trans_addTransition _ _ _ _ _ _ _ ht with h1 | ⟨_, _, rfl⟩
    · rw [trans_setAccepting, trans_setAccepting] at h1
      by_cases hk : k < a1.length
      · have := hf2.closed k hk1 hk c t h1
        omega
      · have := hg.frag.closed k (by omega) hk2 c t h1
        omega
    · omega
  · intro k hk1 hk2
    rw [concatPair_length] at hk2
    rw [concatPair_fst, accepting_addTransition]
    show _ ↔ k = g.outState
    rw [accepting_setAccepting, accepting_setAccepting, length_setAccepting]
    by_cases hkg : k = g.outState
    · rw [if_pos ⟨hkg, by omega⟩]
      simp [hkg]
    · rw [if_neg (fun hc => hkg hc.1)]
      by_cases hkf : k = f.outState
      · rw [if_pos ⟨hkf, by omega⟩]
        simp
        omega
      · rw [if_neg (fun hc => hkf hc.1)]
        constructor
        · intro hacc
          by_cases hk : k < a1.length
          · exact absurd ((hf2.acc_iff k hk1 hk).mp hacc) hkf
          · exact absurd ((hg.frag.acc_iff k (by omega) hk2).mp hacc) hkg
        · intro hc
          exact absurd hc hkg

theorem orPair_def (a : Arena) (f g : NFA) :
    orPair a f g =
      (addTransition (addTransition (addTransition (addTransition
        (((setAccepting (setAccepting a f.outState false) g.outState false)
          ++ [⟨false, []⟩]) ++ [⟨true, []⟩])
        a.length EPSILON f.inState)
        a.length EPSILON g.inState)
        f.outState EPSILON (a.length + 1))
        g.outState EPSILON (a.length + 1),
      ⟨a.length, a.length + 1⟩) := by
  simp only [orPair, createState, length_setAccepting, List.length_append,
    List.length_cons, List.length_nil]

theorem orPair_fst (a : Arena) (f g : NFA) :
    (orPair a f g).1 =
      addTransition (addTransition (addTransition (addTransition
        (((setAccepting (setAccepting a f.outState false) g.outState false)
          ++ [⟨false, []⟩]) ++ [⟨true, []⟩])
        a.length EPSILON f.inState)
        a.length EPSILON g.inState)
        f.outState EPSILON (a.length + 1))
        g.outState EPSILON (a.length + 1) := by
  rw [orPair_def]

theorem orPair_snd (a : Arena) (f g : NFA) :
    (orPair a f g).2 = ⟨a.length, a.length + 1⟩ := by
  rw [orPair_def]

theorem orPair_length (a : Arena) (f g : NFA) :
    (orPair a f g).1.length = a.length + 2 := by
  rw [orPair_fst]
  simp [length_addTransition, length_setAccepting]

theorem orPair_built (a0 a1 a2 : Arena) (f g : NFA)
    (hf : Built a0 a1 f) (hg : Built a1 a2 g) :
    Built a0 (orPair a2 f g).1 ⟨a2.length, a2.length + 1⟩ := by
  have hf2 : Frag a2 a0.length a1.length f :=
    hf.frag.transport (fun k hk => hg.frozen k hk)
      (hf.frag.hi_le.trans hg.le)
  have hfo1 : a0.length ≤ f.outState := hf2.out_lo
  have hfo2 : f.outState < a1.length := hf2.out_hi
  have hfi1 : a0.length ≤ f.inState := hf2.in_lo
  have hfi2 : f.inState < a1.length := hf2.in_hi
  have hgo1 : a1.length ≤ g.outState := hg.frag.out_lo
  have hgo2 : g.outState < a2.length := hg.frag.out_hi
  have hgi1 : a1.length ≤ g.inState := hg.frag.in_lo
  have hgi2 : g.inState < a2.length := hg.frag.in_hi
  have h01 : a0.length ≤ a1.length := hf.le
  have h12 : a1.length ≤ a2.length := hg.le
  have hsetlen : (setAccepting (setAccepting a2 f.outState false)
      g.outState false).length = a2.length := by
    rw [length_setAccepting, length_setAccepting]
  have hbase_trans : ∀ k c, k < a2.length →
      trans (((setAccepting (setAccepting a2 f.outState false)
        g.outState false) ++ [⟨false, []⟩]) ++ [⟨true, []⟩]) k c =
      trans a2 k c := by
    intro k c hk
    rw [trans_append_lt _ _ _ _ (by simp [hsetlen]; omega),
      trans_append_lt _ _ _ _ (by rw [hsetlen]; omega),
      trans_setAccepting, trans_setAccepting]
  have hbase_in : ∀ c, trans (((setAccepting (setAccepting a2 f.outState
      false) g.outState false) ++ [⟨false, []⟩]) ++ [⟨true, []⟩])
      a2.length c = [] := by
    intro c
    rw [trans_append_lt _ _ _ _ (by simp [hsetlen]),
      trans_append_one, if_pos hsetlen.symm]
    simp [State.getTransitionsForSymbol, mapGet]
  have hbase_out : ∀ c, trans (((setAccepting (setAccepting a2 f.outState
      false) g.outState false) ++ [⟨false, []⟩]) ++ [⟨true, []⟩])
      (a2.length + 1) c = [] := by
    intro c
    rw [trans_append_one, if_pos (by simp [hsetlen])]
    simp [State.getTransitionsForSymbol, mapGet]
  refine ⟨?_, ?_, ?_, ?_, ?_, ?_, ?_, ?_, ?_, ?_⟩
  · rw [orPair_length]
    omega
  · intro k hk
    rw [orPair_fst,
      getState_addTransition_ne _ _ _ _ _ (by omega),
      getState_addTransition_ne _ _ _ _ _ (by omega),
      getState_addTransition_ne _ _ _ _ _ (by omega),
      getState_addTransition_ne _ _ _ _ _ (by omega),
      getState_append_lt _ _ _ (by simp [hsetlen]; omega),
      getState_append_lt _ _ _ (by rw [hsetlen]; omega),
      getState_setAccepting_ne _ _ _ _ (by omega),
      getState_setAccepting_ne _ _ _ _ (by omega),
      hg.frozen k (by omega), hf.frozen k hk]
  · rw [orPair_length]
  · show a0.length ≤ a2.length
    omega
  · rw [orPair_length]
    show a2.length < a2.length + 2
    omega
  · show a0.length ≤ a2.length + 1
    omega
  · rw [orPair_length]
    show a2.length + 1 < a2.length + 2
    omega
  · show a2.length ≠ a2.length + 1
    omega
  · intro k hk1 hk2 c t ht
    rw [orPair_length] at hk2 ⊢
    rw [orPair_fst] at ht
    rcases mem_trans_addTransition _ _ _ _ _ _ _ ht with ht | ⟨_, _, rfl⟩
    · rcases mem_trans_addTransition _ _ _ _ _ _ _ ht with ht | ⟨_, _, rfl⟩
      · rcases mem_trans_addTransition _ _ _ _ _ _ _ ht with ht | ⟨_, _, rfl⟩
        · rcases mem_trans_addTransition _ _ _ _ _ _ _ ht
            with ht | ⟨_, _, rfl⟩
          · by_cases hk : k < a2.length
            · rw [hbase_trans k c hk] at ht
              by_cases hk' : k < a1.length
              · have := hf2.closed k hk1 hk' c t ht
                omega
              · have := hg.frag.closed k (by omega) hk c t ht
                omega
            · rcases (by omega : k = a2.length ∨ k = a2.length + 1)
                with rfl | rfl
              · rw [hbase_in c] at ht
                simp at ht
              · rw [hbase_out c] at ht
                simp at ht
          · omega
        · omega
      · omega
    · omega
  · intro k hk1 hk2
    rw [orPair_length] at hk2
    show _ ↔ k = a2.length + 1
    rw [orPair_fst, accepting_addTransition, accepting_addTransition,
      accepting_addTransition, accepting_addTransition,
      accepting_append_one, accepting_append_one, hsetlen,
      accepting_setAccepting, accepting_setAccepting, length_setAccepting]
    have hlen2 : ((setAccepting (setAccepting a2 f.outState false)
        g.outState false) ++ [(⟨false, []⟩ : State)]).length =
        a2.length + 1 := by
      simp [hsetlen]
    rw [hlen2]
    by_cases hk : k = a2.length + 1
    · rw [if_pos hk]
      simp [hk]
    · rw [if_neg hk]
      by_cases hk' : k = a2.length
      · rw [if_pos hk']
        simp
        omega
      · rw [if_neg hk']
        by_cases hkg : k = g.outState
        · rw [if_pos ⟨hkg, by omega⟩]
          simp
          omega
        · rw [if_neg (fun hc => hkg hc.1)]
          by_cases hkf : k = f.outState
          · rw [if_pos ⟨hkf, by omega⟩]
            simp
            omega
          · rw [if_neg (fun hc => hkf hc.1)]
            constructor
            · intro hacc
              by_cases hin : k < a1.length
              · exact absurd ((hf2.acc_iff k hk1 hin).mp hacc) hkf
              · exact absurd
                  ((hg.frag.acc_iff k (by omega) (by omega)).mp hacc) hkg
            · intro hc
              exact absurd hc hk

/-- Every fragment produced by running a combinator program on an arena
satisfies the structural invariant: old states untouched, fragment states
fresh and region-closed, exit the unique accepting state of the region. -/
theorem build_built : ∀ (r : Rx) (a0 : Arena),
    Built a0 (build a0 r).1 (build a0 r).2 := by
  intro r
  induction r with
  | chr c => intro a0; exact char_built a0 c
  | eps => intro a0; exact char_built a0 EPSILON
  | cat r s ihr ihs =>
    intro a0
    exact concatPair_built a0 (build a0 r).1 (build (build a0 r).1 s).1
      (build a0 r).2 (build (build a0 r).1 s).2 (ihr a0) (ihs (build a0 r).1)
  | alt r s ihr ihs =>
    intro a0
    have h := orPair_built a0 (build a0 r).1 (build (build a0 r).1 s).1
      (build a0 r).2 (build (build a0 r).1 s).2 (ihr a0) (ihs (build a0 r).1)
    show Built a0 (build a0 (Rx.alt r s)).1 (build a0 (Rx.alt r s)).2
    rw [show build a0 (Rx.alt r s) =
      orPair (build (build a0 r).1 s).1 (build a0 r).2
        (build (build a0 r).1 s).2 from rfl, orPair_snd]
    exact h
  | star r ihr =>
    intro a0
    exact rep_built a0 (build a0 r).1 (build a0 r).2 (ihr a0)
  | plus r ihr =>
    intro a0
    exact plusRep_built a0 (build a0 r).1 (build a0 r).2 (ihr a0)
  | quest r ihr =>
    intro a0
    exact questionRep_built a0 (build a0 r).1 (build a0 r).2 (ihr a0)

/-! ## Run lemmas over fragment regions -/

theorem run_region {a : Arena} {lo hi : Nat} {n : NFA} (h : Frag a lo hi n)
    {s : Nat} {x : List Char} {u : Nat} (hr : Run a s x u) :
    lo ≤ s → s < hi → lo ≤ u ∧ u < hi := by
  induction hr with
  | refl _ => exact fun h1 h2 => ⟨h1, h2⟩
  | eps ht _ ih =>
    intro h1 h2
    obtain ⟨t1, t2⟩ := h.closed _ h1 h2 _ _ ht
    exact ih t1 t2
  | symb ht _ ih =>
    intro h1 h2
    obtain ⟨t1, t2⟩ := h.closed _ h1 h2 _ _ ht
    exact ih t1 t2

/-- In a fragment satisfying the invariant, every accepting run from the
entry ends exactly at the exit state. -/
theorem accepts_run_out {a : Arena} {lo hi : Nat} {n : NFA}
    (h : Frag a lo hi n) {x : List Char} (hacc : Accepts a n.inState x) :
    Run a n.inState x n.outState := by
  obtain ⟨u, hrun, hu⟩ := hacc
  obtain ⟨h1, h2⟩ := run_region h hrun h.in_lo h.in_hi
  have := (h.acc_iff u h1 h2).mp hu
  exact this ▸ hrun

theorem run_no_trans {a : Arena} {s : Nat}
    (hdead : ∀ c, trans a s c = []) {x : List Char} {u : Nat}
    (h : Run a s x u) : x = [] ∧ u = s := by
  cases h with
  | refl _ => exact ⟨rfl, rfl⟩
  | eps ht _ => rw [hdead EPSILON] at ht; simp at ht
  | symb ht _ => rw [hdead _] at ht; simp at ht

/-- Decomposition of a run in an arena with one extra epsilon edge
appended, split at the first use of the new edge.  The edge is stored under
the epsilon key, so it can also be crossed while consuming the sentinel
character itself. -/
theorem run_split_first (a : Arena) (src dst : Nat) {s : Nat}
    {x : List Char} {u : Nat}
    (h : Run (addTransition a src EPSILON dst) s x u) :
    Run a s x u ∨
      ∃ y z, (x = y ++ z ∨ x = y ++ EPSILON :: z) ∧ Run a s y src ∧
        Run (addTransition a src EPSILON dst) dst z u := by
  induction h with
  | refl _ => exact Or.inl (Run.refl _)
  | eps ht htail ih =>
    rcases mem_trans_addTransition _ _ _ _ _ _ _ ht with hold | ⟨rfl, _, rfl⟩
    · rcases ih with h1 | ⟨y, z, hx, h2, h3⟩
      · exact Or.inl (Run.eps hold h1)
      · exact Or.inr ⟨y, z, hx, Run.eps hold h2, h3⟩
    · exact Or.inr ⟨[], _, Or.inl rfl, Run.refl _, htail⟩
  | symb ht htail ih =>
    rcases mem_trans_addTransition _ _ _ _ _ _ _ ht with hold | ⟨rfl, rfl, rfl⟩
    · rcases ih with h1 | ⟨y, z, hx, h2, h3⟩
      · exact Or.inl (Run.symb hold h1)
      · refine Or.inr ⟨_ :: y, z, ?_, Run.symb hold h2, h3⟩
        rcases hx with hx | hx
        · exact Or.inl (by rw [hx]; rfl)
        · exact Or.inr (by rw [hx]; rfl)
    · exact Or.inr ⟨[], _, Or.inr rfl, Run.refl _, htail⟩

/-- `x` splits into zero or more pieces each satisfying `L`. -/
inductive StarConcat (L : List Char → Prop) : List Char → Prop where
  | nil : StarConcat L []
  | cons {x y : List Char} : L x → StarConcat L y → StarConcat L (x ++ y)

/-- `x` splits into one or more pieces each satisfying `L`. -/
inductive PlusConcat (L : List Char → Prop) : List Char → Prop where
  | one {x : List Char} : L x → PlusConcat L x
  | cons {x y : List Char} : L x → PlusConcat L y → PlusConcat L (x ++ y)

/-! ## Transition monotonicity through each combinator -/

theorem trans_le_rep (a : Arena) (f : NFA) (k : Nat) (c : Char) (t : Nat)
    (ht : t ∈ trans a k c) : t ∈ trans (rep a f).1 k c :=
  trans_le_addTransition _ _ _ _ _ _ _
    (trans_le_addTransition _ _ _ _ _ _ _ ht)

theorem trans_le_plusRep (a : Arena) (f : NFA) (k : Nat) (c : Char) (t : Nat)
    (ht : t ∈ trans a k c) : t ∈ trans (plusRep a f).1 k c :=
  trans_le_addTransition _ _ _ _ _ _ _ ht

theorem trans_le_questionRep (a : Arena) (f : NFA) (k : Nat) (c : Char)
    (t : Nat) (ht : t ∈ trans a k c) : t ∈ trans (questionRep a f).1 k c :=
  trans_le_addTransition _ _ _ _ _ _ _ ht

theorem trans_le_concatPair (a : Arena) (f g : NFA) (k : Nat) (c : Char)
    (t : Nat) (ht : t ∈ trans a k c) : t ∈ trans (concatPair a f g).1 k c := by
  rw [concatPair_fst]
  exact trans_le_addTransition _ _ _ _ _ _ _
    (trans_le_setAccepting _ _ _ _ _ _
      (trans_le_setAccepting _ _ _ _ _ _ ht))

theorem trans_le_orPair (a : Arena) (f g : NFA) (k : Nat) (c : Char)
    (t : Nat) (ht : t ∈ trans a k c) : t ∈ trans (orPair a f g).1 k c := by
  rw [orPair_fst]
  exact trans_le_addTransition _ _ _ _ _ _ _
    (trans_le_addTransition _ _ _ _ _ _ _
      (trans_le_addTransition _ _ _ _ _ _ _
        (trans_le_addTransition _ _ _ _ _ _ _
          (trans_le_append _ _ _ _ _
            (trans_le_append _ _ _ _ _
              (trans_le_setAccepting _ _ _ _ _ _
                (trans_le_setAccepting _ _ _ _ _ _ ht)))))))

/-! ## Specific edges and accepting flags created by the combinators -/

theorem trans_addTransition_self (a : Arena) (sid : Nat) (c : Char) (t : Nat)
    (h : sid < a.length) :
    t ∈ trans (addTransition a sid c t) sid c := by
  rw [trans_addTransition, if_pos ⟨rfl, rfl, h⟩]
  exact List.mem_append_right _ (by simp)

theorem rep_skip_edge (a : Arena) (f : NFA) (hin : f.inState < a.length)
    (_hne : f.inState ≠ f.outState) :
    f.outState ∈ trans (rep a f).1 f.inState EPSILON := by
  show f.outState ∈ trans (addTransition
    (addTransition a f.inState EPSILON f.outState) f.outState EPSILON
    f.inState) f.inState EPSILON
  exact trans_le_addTransition _ _ _ _ _ _ _
    (trans_addTransition_self _ _ _ _ hin)

theorem rep_loop_edge (a : Arena) (f : NFA) (hout : f.outState < a.length) :
    f.inState ∈ trans (rep a f).1 f.outState EPSILON := by
  show f.inState ∈ trans (addTransition
    (addTransition a f.inState EPSILON f.outState) f.outState EPSILON
    f.inState) f.outState EPSILON
  exact trans_addTransition_self _ _ _ _
    (by rw [length_addTransition]; exact hout)

theorem plusRep_loop_edge (a : Arena) (f : NFA)
    (hout : f.outState < a.length) :
    f.inState ∈ trans (plusRep a f).1 f.outState EPSILON :=
  trans_addTransition_self _ _ _ _ hout

theorem questionRep_skip_edge (a : Arena) (f : NFA)
    (hin : f.inState < a.length) :
    f.outState ∈ trans (questionRep a f).1 f.inState EPSILON :=
  trans_addTransition_self _ _ _ _ hin

theorem accepting_rep (a : Arena) (f : NFA) (k : Nat) :
    (getState (rep a f).1 k).accepting = (getState a k).accepting := by
  show (getState (addTransition (addTransition a f.inState EPSILON
    f.outState) f.outState EPSILON f.inState) k).accepting = _
  rw [accepting_addTransition, accepting_addTransition]

theorem accepting_plusRep (a : Arena) (f : NFA) (k : Nat) :
    (getState (plusRep a f).1 k).accepting = (getState a k).accepting :=
  accepting_addTransition _ _ _ _ _

theorem accepting_questionRep (a : Arena) (f : NFA) (k : Nat) :
    (getState (questionRep a f).1 k).accepting = (getState a k).accepting :=
  accepting_addTransition _ _ _ _ _

theorem concatPair_edge (a : Arena) (f g : NFA)
    (h : f.outState < a.length) :
    g.inState ∈ trans (concatPair a f g).1 f.outState EPSILON := by
  rw [concatPair_fst]
  exact trans_addTransition_self _ _ _ _
    (by rw [length_setAccepting, length_setAccepting]; exact h)

theorem acc_concatPair_out (a : Arena) (f g : NFA)
    (hgo : g.outState < a.length) :
    (getState (concatPair a f g).1 g.outState).accepting = true := by
  rw [concatPair_fst, accepting_addTransition, accepting_setAccepting,
    if_pos ⟨rfl, by rw [length_setAccepting]; exact hgo⟩]

/-! ## Further matcher lemmas used by the claims -/

theorem testFuel_grow_strict (a : Arena) (fuel sid : Nat) (x : List Char)
    (v : Finset Nat) (b : Bool) (w : Finset Nat) (hv : sid ∉ v)
    (h : testFuel a fuel sid x v = some (b, w)) : insert sid v ⊆ w := by
  cases fuel with
  | zero => rw [testFuel_zero] at h; exact absurd h (by simp)
  | succ n =>
    cases x with
    | nil =>
      by_cases hacc : (getState a sid).accepting = true
      · rw [testFuel_succ_nil_acc _ _ _ _ hv hacc] at h
        have hw : insert sid v = w := congrArg Prod.snd (Option.some_inj.mp h)
        exact hw ▸ Finset.Subset.refl _
      · have hacc' : (getState a sid).accepting = false := by simpa using hacc
        rw [testFuel_succ_nil_eps _ _ _ _ hv hacc'] at h
        exact epsLoop_grow _ _
          (fun t w0 b0 w0' hc => testFuel_grow a n t [] w0 b0 w0' hc) _ _ _ h
    | cons c rest =>
      rw [testFuel_succ_cons _ _ _ _ _ _ hv] at h
      rcases hany : anyLoop (fun t => (testFuel a n t rest ∅).map Prod.fst)
          (trans a sid c) with _ | bb
      · rw [hany] at h; exact absurd h (by simp)
      · rw [hany] at h
        rcases bb with _ | _
        · exact epsLoop_grow _ _
            (fun t w0 b0 w0' hc =>
              testFuel_grow a n t (c :: rest) w0 b0 w0' hc) _ _ _ h
        · have hw : insert sid v = w :=
            congrArg Prod.snd (Option.some_inj.mp h)
          exact hw ▸ Finset.Subset.refl _

theorem anyLoop_iff (f : Nat → Option Bool) (l : List Nat)
    (h : ∀ t ∈ l, ∃ b, f t = some b) :
    anyLoop f l = some true ↔ ∃ t ∈ l, f t = some true := by
  constructor
  · exact anyLoop_true f l
  · intro ⟨t, ht, hft⟩
    induction l with
    | nil => simp at ht
    | cons u us ih =>
      obtain ⟨b, hb⟩ := h u (by simp)
      rcases List.mem_cons.mp ht with rfl | ht'
      · rw [anyLoop, hft]
      · rcases b with _ | _
        · rw [anyLoop, hb]
          exact ih (fun t2 ht2 => h t2 (by simp [ht2])) ht'
        · rw [anyLoop, hb]

/-! ## Claims -/

/-- C10: the fragment returned by `epsilon()` (which is `char(EPSILON)`)
accepts, besides the empty string, the one-character string consisting of
the sentinel character `'ϵ'` itself, because the sentinel is stored in the
same transition table as literal symbols and the matcher also follows it
as a symbol transition. -/
theorem claim_C10 :
    NFA.test (epsilon []).1 (epsilon []).2 [EPSILON] = true ∧
    NFA.test (epsilon []).1 (epsilon []).2 [] = true ∧
    NFA.test (char [] EPSILON).1 (char [] EPSILON).2 [EPSILON] = true := by
  refine ⟨by decide, by decide, by decide⟩

/-- Counterexample to C2 as stated: `test(char(EPSILON), x)` is true for
the non-empty string `"ϵ"`, refuting "true iff `x` is the empty string". -/
theorem claim_C2_cex :
    NFA.test (char [] EPSILON).1 (char [] EPSILON).2 [EPSILON] = true ∧
    ([EPSILON] : List Char) ≠ [] := by
  refine ⟨by decide, by decide⟩

theorem char_accepts_iff (c : Char) (x : List Char) :
    Accepts (char [] c).1 0 x ↔ (x = [c] ∨ (c = EPSILON ∧ x = [])) := by
  have hdead : ∀ c', trans (char [] c).1 (0 + 1) c' = [] := by
    intro c'
    have := trans_char_out ([] : Arena) c c'
    simpa using this
  have htrin : ∀ c', trans (char [] c).1 0 c' =
      if c' = c then [0 + 1] else [] := by
    intro c'
    have := trans_char_in ([] : Arena) c c'
    simpa using this
  have haccin : (getState (char [] c).1 0).accepting = false := by
    have := acc_char_in ([] : Arena) c
    simpa using this
  have haccout : (getState (char [] c).1 (0 + 1)).accepting = true := by
    have := acc_char_out ([] : Arena) c
    simpa using this
  constructor
  · rintro ⟨u, hrun, hacc⟩
    cases hrun with
    | refl _ => rw [haccin] at hacc; exact absurd hacc (by simp)
    | eps ht htail =>
      rw [htrin] at ht
      by_cases hc : EPSILON = c
      · rw [if_pos hc] at ht
        simp at ht
        subst ht
        obtain ⟨rfl, rfl⟩ := run_no_trans hdead htail
        exact Or.inr ⟨hc.symm, rfl⟩
      · rw [if_neg hc] at ht
        simp at ht
    | @symb _ t _ cc rst ht htail =>
      rw [htrin] at ht
      by_cases hc : cc = c
      · rw [if_pos hc] at ht
        simp at ht
        subst ht
        obtain ⟨rfl, rfl⟩ := run_no_trans hdead htail
        exact Or.inl (by rw [hc])
      · rw [if_neg hc] at ht
        simp at ht
  · rintro (rfl | ⟨rfl, rfl⟩)
    · refine ⟨0 + 1, Run.symb ?_ (Run.refl _), haccout⟩
      rw [htrin, if_pos rfl]
      simp
    · refine ⟨0 + 1, Run.eps ?_ (Run.refl _), haccout⟩
      rw [htrin, if_pos rfl]
      simp

/-- C2 (amended): `test(char(s), x)` is true iff `x` is the one-character
string `s`, or `s` is the epsilon sentinel and `x` is empty; the sentinel
case also accepts the one-character sentinel string via the first
disjunct. -/
theorem claim_C2 (c : Char) (x : List Char) :
    NFA.test (char [] c).1 (char [] c).2 x = true ↔
      (x = [c] ∨ (c = EPSILON ∧ x = [])) := by
  have hsnd : (char [] c).2 = ⟨0, 1⟩ := by
    have := char_snd ([] : Arena) c
    simpa using this
  rw [NFA.test, hsnd]
  show stest (char [] c).1 0 x = true ↔ _
  rw [show stest (char [] c).1 0 x = NFA.test (char [] c).1 ⟨0, 1⟩ x from rfl]
  rw [test_iff_accepts]
  show Accepts (char [] c).1 0 x ↔ _
  exact char_accepts_iff c x

/-- C1: the matching procedure terminates on every automaton and every
finite input: the computable fuel bound `fuelNeed` is sufficient (any
larger fuel yields the same verdict, and the verdict exists), and the
visited set only grows during a call - strictly, by at least the current
state, whenever the state was not already visited (it is reset only at the
fresh-set symbol-consumption calls, which start from `∅` again). -/
theorem claim_C1 (a : Arena) (sid : Nat) (x : List Char) (v : Finset Nat)
    (fuel : Nat) (hfuel : fuelNeed a sid x v ≤ fuel) :
    testFuel a fuel sid x v = testFuel a (fuelNeed a sid x v) sid x v ∧
    ∃ b w, testFuel a fuel sid x v = some (b, w) ∧ v ⊆ w ∧
      (sid ∉ v → insert sid v ⊆ w) := by
  obtain ⟨⟨b, w⟩, h0⟩ :=
    testFuel_isSome a (fuelNeed a sid x v) sid x v (Nat.le_refl _)
  have h1 := testFuel_mono a _ fuel sid x v _ hfuel h0
  refine ⟨by rw [h0, h1], b, w, h1,
    testFuel_grow a fuel sid x v b w h1,
    fun hv => testFuel_grow_strict a fuel sid x v b w hv h1⟩

theorem claim_C1_witness :
    fuelNeed (char [] 'a').1 0 ['a'] ∅ ≤ 9 ∧
    (testFuel (char [] 'a').1 9 0 ['a'] ∅ =
        testFuel (char [] 'a').1 (fuelNeed (char [] 'a').1 0 ['a'] ∅)
          0 ['a'] ∅ ∧
      ∃ b w, testFuel (char [] 'a').1 9 0 ['a'] ∅ = some (b, w) ∧ ∅ ⊆ w ∧
        (0 ∉ (∅ : Finset Nat) → insert 0 ∅ ⊆ w)) :=
  ⟨by decide, claim_C1 (char [] 'a').1 0 ['a'] ∅ 9 (by decide)⟩

/-- C8: behaviour of the per-state matching procedure on non-empty input:
a visited state fails immediately with the visited set unchanged; each
state reachable on the first symbol is tested against the rest of the
input with a fresh empty visited set, and a success there returns true
without consulting epsilon transitions; only if all symbol successors fail
is the epsilon loop run on the same unconsumed input with the same
(extended) visited set; and, when defined, the symbol loop succeeds
exactly when some symbol successor accepts the rest. -/
theorem claim_C8 (a : Arena) (fuel sid : Nat) (x : List Char) (c : Char)
    (rest : List Char) (v : Finset Nat) :
    (sid ∈ v → testFuel a (fuel + 1) sid x v = some (false, v)) ∧
    (sid ∉ v →
      anyLoop (fun t => (testFuel a fuel t rest ∅).map Prod.fst)
          (trans a sid c) = some true →
        testFuel a (fuel + 1) sid (c :: rest) v =
          some (true, insert sid v)) ∧
    (sid ∉ v →
      anyLoop (fun t => (testFuel a fuel t rest ∅).map Prod.fst)
          (trans a sid c) = some false →
        testFuel a (fuel + 1) sid (c :: rest) v =
          epsLoop (fun t w => testFuel a fuel t (c :: rest) w)
            (trans a sid EPSILON) (insert sid v)) ∧
    ((∀ t ∈ trans a sid c, ∃ r, testFuel a fuel t rest ∅ = some r) →
      (anyLoop (fun t => (testFuel a fuel t rest ∅).map Prod.fst)
          (trans a sid c) = some true ↔
        ∃ t ∈ trans a sid c, ∃ w, testFuel a fuel t rest ∅ =
          some (true, w))) := by
  refine ⟨fun hv => testFuel_succ_mem _ _ _ _ _ hv, ?_, ?_, ?_⟩
  · intro hv hany
    rw [testFuel_succ_cons _ _ _ _ _ _ hv, hany]
  · intro hv hany
    rw [testFuel_succ_cons _ _ _ _ _ _ hv, hany]
  · intro hsome
    rw [anyLoop_iff _ _ (fun t ht => by
      obtain ⟨⟨b0, w0⟩, h0⟩ := hsome t ht
      exact ⟨b0, by rw [h0]; rfl⟩)]
    constructor
    · rintro ⟨t, ht, hft⟩
      rcases h0 : testFuel a fuel t rest ∅ with _ | ⟨b0, w0⟩
      · rw [h0] at hft; exact absurd hft (by simp)
      · rw [h0] at hft
        have : b0 = true := by simpa using Option.some_inj.mp hft
        exact ⟨t, ht, w0, this ▸ h0⟩
    · rintro ⟨t, ht, w0, h0⟩
      exact ⟨t, ht, by rw [h0]; rfl⟩

theorem claim_C8_witness :
    (0 ∈ ({0} : Finset Nat) →
      testFuel (char [] 'a').1 (5 + 1) 0 ['a'] {0} = some (false, {0})) ∧
    (0 ∉ ({0} : Finset Nat) →
      anyLoop (fun t => (testFuel (char [] 'a').1 5 t [] ∅).map Prod.fst)
          (trans (char [] 'a').1 0 'a') = some true →
        testFuel (char [] 'a').1 (5 + 1) 0 ('a' :: []) {0} =
          some (true, insert 0 {0})) ∧
    (0 ∉ ({0} : Finset Nat) →
      anyLoop (fun t => (testFuel (char [] 'a').1 5 t [] ∅).map Prod.fst)
          (trans (char [] 'a').1 0 'a') = some false →
        testFuel (char [] 'a').1 (5 + 1) 0 ('a' :: []) {0} =
          epsLoop (fun t w => testFuel (char [] 'a').1 5 t ('a' :: []) w)
            (trans (char [] 'a').1 0 EPSILON) (insert 0 {0})) ∧
    ((∀ t ∈ trans (char [] 'a').1 0 'a', ∃ r,
        testFuel (char [] 'a').1 5 t [] ∅ = some r) →
      (anyLoop (fun t => (testFuel (char [] 'a').1 5 t [] ∅).map Prod.fst)
          (trans (char [] 'a').1 0 'a') = some true ↔
        ∃ t ∈ trans (char [] 'a').1 0 'a', ∃ w,
          testFuel (char [] 'a').1 5 t [] ∅ = some (true, w))) :=
  claim_C8 (char [] 'a').1 5 0 ['a'] 'a' [] {0}

/-! ## Language lemmas for the repetition and concatenation combinators -/

theorem rep_star_lang {a0 a1 : Arena} {f : NFA} (hb : Built a0 a1 f) :
    NFA.test (rep a1 f).1 (rep a1 f).2 [] = true ∧
    ∀ x, StarConcat (fun y => NFA.test a1 f y = true) x →
      NFA.test (rep a1 f).1 (rep a1 f).2 x = true := by
  have hfrag := hb.frag
  have hrepb := rep_built a0 a1 f hb
  have haccout : (getState (rep a1 f).1 f.outState).accepting = true := by
    rw [accepting_rep]
    exact (hfrag.acc_iff f.outState hfrag.out_lo hfrag.out_hi).mpr rfl
  have hnil : NFA.test (rep a1 f).1 (rep a1 f).2 [] = true := by
    rw [rep_snd, test_iff_accepts]
    exact ⟨f.outState,
      Run.eps (rep_skip_edge a1 f hfrag.in_hi hfrag.in_ne_out) (Run.refl _),
      haccout⟩
  refine ⟨hnil, ?_⟩
  intro x hx
  induction hx with
  | nil => exact hnil
  | cons hy _ ih =>
    rw [rep_snd, test_iff_accepts]
    have hrun_y : Run a1 f.inState _ f.outState :=
      accepts_run_out hfrag ((test_iff_accepts a1 f _).mp hy)
    have hrun_yB : Run (rep a1 f).1 f.inState _ f.outState :=
      run_mono a1 (rep a1 f).1 (fun s c t ht => trans_le_rep a1 f s c t ht)
        hrun_y
    rw [rep_snd, test_iff_accepts] at ih
    have hrun_zB : Run (rep a1 f).1 f.inState _ f.outState :=
      accepts_run_out hrepb.frag ih
    exact ⟨f.outState,
      run_append _ hrun_yB
        (Run.eps (rep_loop_edge a1 f hfrag.out_hi) hrun_zB), haccout⟩

theorem plus_lang {a0 a1 : Arena} {f : NFA} (hb : Built a0 a1 f) :
    (NFA.test (plusRep a1 f).1 (plusRep a1 f).2 [] = true →
      NFA.test a1 f [] = true) ∧
    ∀ x, PlusConcat (fun y => NFA.test a1 f y = true) x →
      NFA.test (plusRep a1 f).1 (plusRep a1 f).2 x = true := by
  have hfrag := hb.frag
  have hplusb := plusRep_built a0 a1 f hb
  have haccout : (getState (plusRep a1 f).1 f.outState).accepting = true := by
    rw [accepting_plusRep]
    exact (hfrag.acc_iff f.outState hfrag.out_lo hfrag.out_hi).mpr rfl
  have haccout1 : (getState a1 f.outState).accepting = true :=
    (hfrag.acc_iff f.outState hfrag.out_lo hfrag.out_hi).mpr rfl
  constructor
  · intro htest
    rw [plusRep_snd, test_iff_accepts] at htest
    have hrun : Run (plusRep a1 f).1 f.inState [] f.outState :=
      accepts_run_out hplusb.frag htest
    have hsplit := run_split_first a1 f.outState f.inState hrun
    rw [test_iff_accepts]
    rcases hsplit with h1 | ⟨y, z, hyz, h2, _⟩
    · exact ⟨f.outState, h1, haccout1⟩
    · have hy : y = [] := by
        rcases hyz with hyz | hyz
        · exact (List.append_eq_nil.mp hyz.symm).1
        · exact absurd hyz (by simp)
      exact ⟨f.outState, hy ▸ h2, haccout1⟩
  · intro x hx
    induction hx with
    | one hy =>
      rw [plusRep_snd, test_iff_accepts]
      have hrun_y : Run a1 f.inState _ f.outState :=
        accepts_run_out hfrag ((test_iff_accepts a1 f _).mp hy)
      exact ⟨f.outState,
        run_mono a1 (plusRep a1 f).1
          (fun s c t ht => trans_le_plusRep a1 f s c t ht) hrun_y, haccout⟩
    | cons hy _ ih =>
      rw [plusRep_snd, test_iff_accepts]
      have hrun_y : Run a1 f.inState _ f.outState :=
        accepts_run_out hfrag ((test_iff_accepts a1 f _).mp hy)
      have hrun_yB : Run (plusRep a1 f).1 f.inState _ f.outState :=
        run_mono a1 (plusRep a1 f).1
          (fun s c t ht => trans_le_plusRep a1 f s c t ht) hrun_y
      rw [plusRep_snd, test_iff_accepts] at ih
      have hrun_zB : Run (plusRep a1 f).1 f.inState _ f.outState :=
        accepts_run_out hplusb.frag ih
      exact ⟨f.outState,
        run_append _ hrun_yB
          (Run.eps (plusRep_loop_edge a1 f hfrag.out_hi) hrun_zB), haccout⟩

theorem concat3_lang {a0 a1 a2 a3 : Arena} {f g h : NFA}
    (hf : Built a0 a1 f) (hg : Built a1 a2 g) (hh : Built a2 a3 h)
    (x y z : List Char)
    (hx : NFA.test a3 f x = true) (hy : NFA.test a3 g y = true)
    (hz : NFA.test a3 h z = true) :
    NFA.test (concat a3 f [g, h]).1 (concat a3 f [g, h]).2
      (x ++ (y ++ z)) = true := by
  have hf3 : Frag a3 a0.length a1.length f :=
    (hf.frag.transport (fun k hk => hg.frozen k hk)
      (hf.frag.hi_le.trans hg.le)).transport
      (fun k hk => hh.frozen k (by
        have := hg.le
        omega))
      (le_trans (by have := hg.le; exact this) hh.le)
  have hg3 : Frag a3 a1.length a2.length g :=
    hg.frag.transport (fun k hk => hh.frozen k hk)
      (hg.frag.hi_le.trans hh.le)
  have hh3 : Frag a3 a2.length a3.length h := hh.frag
  have hRx : Run a3 f.inState x f.outState :=
    accepts_run_out hf3 ((test_iff_accepts a3 f x).mp hx)
  have hRy : Run a3 g.inState y g.outState :=
    accepts_run_out hg3 ((test_iff_accepts a3 g y).mp hy)
  have hRz : Run a3 h.inState z h.outState :=
    accepts_run_out hh3 ((test_iff_accepts a3 h z).mp hz)
  have hsub : ∀ s c, ∀ t ∈ trans a3 s c,
      t ∈ trans (concat a3 f [g, h]).1 s c := by
    intro s c t ht
    exact trans_le_concatPair (concatPair a3 f g).1 (concatPair a3 f g).2 h
      s c t (trans_le_concatPair a3 f g s c t ht)
  have he1 : g.inState ∈ trans (concat a3 f [g, h]).1 f.outState EPSILON := by
    have h1 : g.inState ∈ trans (concatPair a3 f g).1 f.outState EPSILON :=
      concatPair_edge a3 f g (by have := hf3.out_hi; have := hg.le
                                 have := hh.le; omega)
    exact trans_le_concatPair (concatPair a3 f g).1 (concatPair a3 f g).2 h
      f.outState EPSILON g.inState h1
  have he2 : h.inState ∈ trans (concat a3 f [g, h]).1 g.outState EPSILON := by
    have h1 : h.inState ∈ trans (concatPair (concatPair a3 f g).1
        (concatPair a3 f g).2 h).1 g.outState EPSILON := by
      have := concatPair_edge (concatPair a3 f g).1 (concatPair a3 f g).2 h
        (by rw [concatPair_length]
            show g.outState < a3.length
            have := hg3.out_hi
            have := hh.le
            omega)
      exact this
    exact h1
  have hacc : (getState (concat a3 f [g, h]).1 h.outState).accepting = true := by
    have := acc_concatPair_out (concatPair a3 f g).1 (concatPair a3 f g).2 h
      (by rw [concatPair_length]
          exact hh3.out_hi)
    exact this
  rw [test_iff_accepts]
  refine ⟨h.outState, ?_, hacc⟩
  show Run (concat a3 f [g, h]).1 f.inState (x ++ (y ++ z)) h.outState
  refine run_append _ (run_mono a3 _ hsub hRx) (Run.eps he1 ?_)
  exact run_append _ (run_mono a3 _ hsub hRy) (Run.eps he2
    (run_mono a3 _ hsub hRz))

/-- C5: for a freshly constructed fragment, `rep` accepts the empty string,
and accepts every concatenation of zero or more strings accepted by the
fragment's pre-call language. -/
theorem claim_C5 (r : Rx) (a0 : Arena) (x : List Char)
    (hx : StarConcat
      (fun y => NFA.test (build a0 r).1 (build a0 r).2 y = true) x) :
    NFA.test (rep (build a0 r).1 (build a0 r).2).1
      (rep (build a0 r).1 (build a0 r).2).2 [] = true ∧
    NFA.test (rep (build a0 r).1 (build a0 r).2).1
      (rep (build a0 r).1 (build a0 r).2).2 x = true :=
  ⟨(rep_star_lang (build_built r a0)).1,
    (rep_star_lang (build_built r a0)).2 x hx⟩

theorem claim_C5_witness :
    StarConcat (fun y =>
      NFA.test (build [] (Rx.chr 'a')).1 (build [] (Rx.chr 'a')).2 y = true)
      (['a'] ++ []) ∧
    (NFA.test (rep (build [] (Rx.chr 'a')).1 (build [] (Rx.chr 'a')).2).1
        (rep (build [] (Rx.chr 'a')).1 (build [] (Rx.chr 'a')).2).2 [] =
        true ∧
      NFA.test (rep (build [] (Rx.chr 'a')).1 (build [] (Rx.chr 'a')).2).1
        (rep (build [] (Rx.chr 'a')).1 (build [] (Rx.chr 'a')).2).2
        (['a'] ++ []) = true) :=
  ⟨StarConcat.cons (by decide) StarConcat.nil,
    claim_C5 (Rx.chr 'a') [] (['a'] ++ [])
      (StarConcat.cons (by decide) StarConcat.nil)⟩

/-- C6: `plusRep` of a freshly constructed fragment rejects the empty
string unless the fragment's pre-call language already contains it, and
accepts every concatenation of one or more strings accepted by the
pre-call language. -/
theorem claim_C6 (r : Rx) (a0 : Arena) (x : List Char)
    (hx : PlusConcat
      (fun y => NFA.test (build a0 r).1 (build a0 r).2 y = true) x) :
    (NFA.test (plusRep (build a0 r).1 (build a0 r).2).1
        (plusRep (build a0 r).1 (build a0 r).2).2 [] = true →
      NFA.test (build a0 r).1 (build a0 r).2 [] = true) ∧
    NFA.test (plusRep (build a0 r).1 (build a0 r).2).1
      (plusRep (build a0 r).1 (build a0 r).2).2 x = true :=
  ⟨(plus_lang (build_built r a0)).1,
    (plus_lang (build_built r a0)).2 x hx⟩

theorem claim_C6_witness :
    PlusConcat (fun y =>
      NFA.test (build [] (Rx.chr 'a')).1 (build [] (Rx.chr 'a')).2 y = true)
      (['a'] ++ ['a']) ∧
    ((NFA.test (plusRep (build [] (Rx.chr 'a')).1
          (build [] (Rx.chr 'a')).2).1
        (plusRep (build [] (Rx.chr 'a')).1 (build [] (Rx.chr 'a')).2).2 [] =
          true →
      NFA.test (build [] (Rx.chr 'a')).1 (build [] (Rx.chr 'a')).2 [] =
        true) ∧
      NFA.test (plusRep (build [] (Rx.chr 'a')).1
          (build [] (Rx.chr 'a')).2).1
        (plusRep (build [] (Rx.chr 'a')).1 (build [] (Rx.chr 'a')).2).2
        (['a'] ++ ['a']) = true) :=
  ⟨PlusConcat.cons (by decide) (PlusConcat.one (by decide)),
    claim_C6 (Rx.chr 'a') [] (['a'] ++ ['a'])
      (PlusConcat.cons (by decide) (PlusConcat.one (by decide)))⟩

/-- C4: for three independent freshly constructed fragments, the
concatenation accepts `x ++ y ++ z` whenever the three pre-call languages
contain `x`, `y` and `z` respectively. -/
theorem claim_C4 (ra rb rc : Rx) (a0 : Arena) (x y z : List Char)
    (hx : NFA.test (build (build (build a0 ra).1 rb).1 rc).1
      (build a0 ra).2 x = true)
    (hy : NFA.test (build (build (build a0 ra).1 rb).1 rc).1
      (build (build a0 ra).1 rb).2 y = true)
    (hz : NFA.test (build (build (build a0 ra).1 rb).1 rc).1
      (build (build (build a0 ra).1 rb).1 rc).2 z = true) :
    NFA.test
      (concat (build (build (build a0 ra).1 rb).1 rc).1 (build a0 ra).2
        [(build (build a0 ra).1 rb).2,
          (build (build (build a0 ra).1 rb).1 rc).2]).1
      (concat (build (build (build a0 ra).1 rb).1 rc).1 (build a0 ra).2
        [(build (build a0 ra).1 rb).2,
          (build (build (build a0 ra).1 rb).1 rc).2]).2
      (x ++ y ++ z) = true := by
  have := concat3_lang (build_built ra a0)
    (build_built rb (build a0 ra).1)
    (build_built rc (build (build a0 ra).1 rb).1) x y z hx hy hz
  rw [List.append_assoc]
  exact this

theorem claim_C4_witness :
    NFA.test (build (build (build [] (Rx.chr 'a')).1 (Rx.chr 'b')).1
        (Rx.chr 'c')).1 (build [] (Rx.chr 'a')).2 ['a'] = true ∧
    NFA.test (build (build (build [] (Rx.chr 'a')).1 (Rx.chr 'b')).1
        (Rx.chr 'c')).1 (build (build [] (Rx.chr 'a')).1 (Rx.chr 'b')).2
      ['b'] = true ∧
    NFA.test (build (build (build [] (Rx.chr 'a')).1 (Rx.chr 'b')).1
        (Rx.chr 'c')).1
      (build (build (build [] (Rx.chr 'a')).1 (Rx.chr 'b')).1
        (Rx.chr 'c')).2 ['c'] = true ∧
    NFA.test
      (concat (build (build (build [] (Rx.chr 'a')).1 (Rx.chr 'b')).1
          (Rx.chr 'c')).1 (build [] (Rx.chr 'a')).2
        [(build (build [] (Rx.chr 'a')).1 (Rx.chr 'b')).2,
          (build (build (build [] (Rx.chr 'a')).1 (Rx.chr 'b')).1
            (Rx.chr 'c')).2]).1
      (concat (build (build (build [] (Rx.chr 'a')).1 (Rx.chr 'b')).1
          (Rx.chr 'c')).1 (build [] (Rx.chr 'a')).2
        [(build (build [] (Rx.chr 'a')).1 (Rx.chr 'b')).2,
          (build (build (build [] (Rx.chr 'a')).1 (Rx.chr 'b')).1
            (Rx.chr 'c')).2]).2
      (['a'] ++ ['b'] ++ ['c']) = true :=
  ⟨by decide, by decide, by decide,
    claim_C4 (Rx.chr 'a') (Rx.chr 'b') (Rx.chr 'c') [] ['a'] ['b'] ['c']
      (by decide) (by decide) (by decide)⟩

/-! ## Run decomposition for the alternation combinator -/

/-- A run inside a region of `B` whose transitions agree with `A` except
for one extra epsilon edge from `exitS` to a dead state `dst` either stays
an `A`-run inside the region or crosses to `dst` at the very end, provided
the input never contains the sentinel (so the extra edge cannot be crossed
as a symbol transition). -/
theorem region_side_run (A B : Arena) (lo hi exitS dst : Nat)
    (hmem : ∀ k c t, lo ≤ k → k < hi → t ∈ trans B k c →
      t ∈ trans A k c ∨ (k = exitS ∧ c = EPSILON ∧ t = dst))
    (hclosed : ∀ k c t, lo ≤ k → k < hi → t ∈ trans A k c →
      lo ≤ t ∧ t < hi)
    (hdead : ∀ c, trans B dst c = []) :
    ∀ s x u, Run B s x u → EPSILON ∉ x → lo ≤ s → s < hi →
      (Run A s x u ∧ lo ≤ u ∧ u < hi) ∨ (Run A s x exitS ∧ u = dst) := by
  intro s x u hrun
  induction hrun with
  | refl _ =>
    intro _ h1 h2
    exact Or.inl ⟨Run.refl _, h1, h2⟩
  | eps ht htail ih =>
    intro hx h1 h2
    rcases hmem _ _ _ h1 h2 ht with hold | ⟨rfl, _, rfl⟩
    · obtain ⟨t1, t2⟩ := hclosed _ _ _ h1 h2 hold
      rcases ih hx t1 t2 with ⟨hA, hu1, hu2⟩ | ⟨hA, hu⟩
      · exact Or.inl ⟨Run.eps hold hA, hu1, hu2⟩
      · exact Or.inr ⟨Run.eps hold hA, hu⟩
    · obtain ⟨rfl, rfl⟩ := run_no_trans hdead htail
      exact Or.inr ⟨Run.refl _, rfl⟩
  | symb ht htail ih =>
    intro hx h1 h2
    rcases hmem _ _ _ h1 h2 ht with hold | ⟨rfl, hc, rfl⟩
    · obtain ⟨t1, t2⟩ := hclosed _ _ _ h1 h2 hold
      have hx' : EPSILON ∉ _ := fun hc => hx (List.mem_cons_of_mem _ hc)
      rcases ih hx' t1 t2 with ⟨hA, hu1, hu2⟩ | ⟨hA, hu⟩
      · exact Or.inl ⟨Run.symb hold hA, hu1, hu2⟩
      · exact Or.inr ⟨Run.symb hold hA, hu⟩
    · exact absurd (hc ▸ List.mem_cons_self _ _) hx

theorem orPair_base_trans_old (a : Arena) (f g : NFA) (k : Nat) (c : Char)
    (hk : k < a.length) :
    trans (((setAccepting (setAccepting a f.outState false) g.outState
        false) ++ [(⟨false, []⟩ : State)]) ++ [(⟨true, []⟩ : State)]) k c =
      trans a k c := by
  have hsetlen : (setAccepting (setAccepting a f.outState false)
      g.outState false).length = a.length := by
    rw [length_setAccepting, length_setAccepting]
  rw [trans_append_lt _ _ _ _ (by simp [hsetlen]; omega),
    trans_append_lt _ _ _ _ (by rw [hsetlen]; omega),
    trans_setAccepting, trans_setAccepting]

theorem orPair_base_trans_in (a : Arena) (f g : NFA) (c : Char) :
    trans (((setAccepting (setAccepting a f.outState false) g.outState
        false) ++ [(⟨false, []⟩ : State)]) ++ [(⟨true, []⟩ : State)])
      a.length c = [] := by
  have hsetlen : (setAccepting (setAccepting a f.outState false)
      g.outState false).length = a.length := by
    rw [length_setAccepting, length_setAccepting]
  rw [trans_append_lt _ _ _ _ (by simp [hsetlen]),
    trans_append_one, if_pos hsetlen.symm]
  simp [State.getTransitionsForSymbol, mapGet]

theorem orPair_base_trans_out (a : Arena) (f g : NFA) (c : Char) :
    trans (((setAccepting (setAccepting a f.outState false) g.outState
        false) ++ [(⟨false, []⟩ : State)]) ++ [(⟨true, []⟩ : State)])
      (a.length + 1) c = [] := by
  have hsetlen : (setAccepting (setAccepting a f.outState false)
      g.outState false).length = a.length := by
    rw [length_setAccepting, length_setAccepting]
  rw [trans_append_one, if_pos (by simp [hsetlen])]
  simp [State.getTransitionsForSymbol, mapGet]

theorem trans_orPair_in (a : Arena) (f g : NFA)
    (hfo : f.outState < a.length) (hgo : g.outState < a.length) (c : Char) :
    trans (orPair a f g).1 a.length c =
      if c = EPSILON then [f.inState, g.inState] else [] := by
  have hsetlen : (setAccepting (setAccepting a f.outState false)
      g.outState false).length = a.length := by
    rw [length_setAccepting, length_setAccepting]
  have hlen1 : ((((setAccepting (setAccepting a f.outState false)
      g.outState false) ++ [(⟨false, []⟩ : State)]) ++
      [(⟨true, []⟩ : State)])).length = a.length + 2 := by
    simp [hsetlen]
  rw [orPair_fst, trans_addTransition, if_neg (by omega)]
  rw [trans_addTransition, if_neg (by omega)]
  by_cases hc : c = EPSILON
  · subst hc
    rw [trans_addTransition,
      if_pos ⟨rfl, rfl, by rw [length_addTransition, hlen1]; omega⟩,
      trans_addTransition,
      if_pos ⟨rfl, rfl, by rw [hlen1]; omega⟩,
      orPair_base_trans_in]
    simp
  · rw [trans_addTransition, if_neg (fun hcon => hc hcon.2.1),
      trans_addTransition, if_neg (fun hcon => hc hcon.2.1),
      orPair_base_trans_in]
    simp [hc]

theorem trans_orPair_out_dead (a : Arena) (f g : NFA)
    (hfo : f.outState < a.length) (hgo : g.outState < a.length) (c : Char) :
    trans (orPair a f g).1 (a.length + 1) c = [] := by
  rw [orPair_fst, trans_addTransition, if_neg (by omega),
    trans_addTransition, if_neg (by omega),
    trans_addTransition, if_neg (by omega),
    trans_addTransition, if_neg (by omega),
    orPair_base_trans_out]

theorem trans_orPair_mem (a : Arena) (f g : NFA) (k : Nat) (c : Char)
    (t : Nat) (hk : k < a.length)
    (ht : t ∈ trans (orPair a f g).1 k c) :
    t ∈ trans a k c ∨
      ((k = f.outState ∨ k = g.outState) ∧ c = EPSILON ∧
        t = a.length + 1) := by
  rw [orPair_fst] at ht
  rcases mem_trans_addTransition _ _ _ _ _ _ _ ht with ht | ⟨h1, h2, h3⟩
  · rcases mem_trans_addTransition _ _ _ _ _ _ _ ht with ht | ⟨h1, h2, h3⟩
    · rcases mem_trans_addTransition _ _ _ _ _ _ _ ht with ht | ⟨h1, _, _⟩
      · rcases mem_trans_addTransition _ _ _ _ _ _ _ ht with ht | ⟨h1, _, _⟩
        · rw [orPair_base_trans_old a f g k c hk] at ht
          exact Or.inl ht
        · omega
      · omega
    · exact Or.inr ⟨Or.inl h1, h2, h3⟩
  · exact Or.inr ⟨Or.inr h1, h2, h3⟩

theorem orPair_in_edge_f (a : Arena) (f g : NFA)
    (hfo : f.outState < a.length) (hgo : g.outState < a.length) :
    f.inState ∈ trans (orPair a f g).1 a.length EPSILON := by
  rw [trans_orPair_in a f g hfo hgo, if_pos rfl]
  simp

theorem orPair_in_edge_g (a : Arena) (f g : NFA)
    (hfo : f.outState < a.length) (hgo : g.outState < a.length) :
    g.inState ∈ trans (orPair a f g).1 a.length EPSILON := by
  rw [trans_orPair_in a f g hfo hgo, if_pos rfl]
  simp

theorem orPair_exit_edge_f (a : Arena) (f g : NFA)
    (hfo : f.outState < a.length) :
    (a.length + 1) ∈ trans (orPair a f g).1 f.outState EPSILON := by
  have hsetlen : (setAccepting (setAccepting a f.outState false)
      g.outState false).length = a.length := by
    rw [length_setAccepting, length_setAccepting]
  rw [orPair_fst]
  refine trans_le_addTransition _ _ _ _ _ _ _ ?_
  refine trans_addTransition_self _ _ _ _ ?_
  rw [length_addTransition, length_addTransition]
  simp [hsetlen]
  omega

theorem orPair_exit_edge_g (a : Arena) (f g : NFA)
    (hgo : g.outState < a.length) :
    (a.length + 1) ∈ trans (orPair a f g).1 g.outState EPSILON := by
  have hsetlen : (setAccepting (setAccepting a f.outState false)
      g.outState false).length = a.length := by
    rw [length_setAccepting, length_setAccepting]
  rw [orPair_fst]
  refine trans_addTransition_self _ _ _ _ ?_
  rw [length_addTransition, length_addTransition, length_addTransition]
  simp [hsetlen]
  omega

theorem acc_orPair_out (a : Arena) (f g : NFA) :
    (getState (orPair a f g).1 (a.length + 1)).accepting = true := by
  have hsetlen : (setAccepting (setAccepting a f.outState false)
      g.outState false).length = a.length := by
    rw [length_setAccepting, length_setAccepting]
  rw [orPair_fst, accepting_addTransition, accepting_addTransition,
    accepting_addTransition, accepting_addTransition, accepting_append_one,
    if_pos (by simp [hsetlen])]

theorem bool_eq_of_iff {b c : Bool} (h : b = true ↔ c = true) : b = c := by
  cases b <;> cases c <;> simp_all

theorem or_lang {a0 a1 a2 : Arena} {f g : NFA} (hf : Built a0 a1 f)
    (hg : Built a1 a2 g) (x : List Char) (hx : EPSILON ∉ x) :
    NFA.test (orPair a2 f g).1 (orPair a2 f g).2 x =
      (NFA.test a2 f x || NFA.test a2 g x) := by
  have hf2 : Frag a2 a0.length a1.length f :=
    hf.frag.transport (fun k hk => hg.frozen k hk)
      (hf.frag.hi_le.trans hg.le)
  have h01 : a0.length ≤ a1.length := hf.le
  have h12 : a1.length ≤ a2.length := hg.le
  have hfo : f.outState < a2.length := by have := hf2.out_hi; omega
  have hgo : g.outState < a2.length := hg.frag.out_hi
  have horb := orPair_built a0 a1 a2 f g hf hg
  have hsnd : (orPair a2 f g).2 = ⟨a2.length, a2.length + 1⟩ :=
    orPair_snd a2 f g
  have haccf : (getState a2 f.outState).accepting = true :=
    (hf2.acc_iff f.outState hf2.out_lo hf2.out_hi).mpr rfl
  have haccg : (getState a2 g.outState).accepting = true :=
    (hg.frag.acc_iff g.outState hg.frag.out_lo hg.frag.out_hi).mpr rfl
  refine bool_eq_of_iff ?_
  rw [Bool.or_eq_true]
  constructor
  · intro htest
    rw [hsnd, test_iff_accepts] at htest
    have hrun : Run (orPair a2 f g).1 a2.length x (a2.length + 1) :=
      accepts_run_out horb.frag htest
    -- first step from the fresh entry state
    have hstep : ∃ t, (t = f.inState ∨ t = g.inState) ∧
        Run (orPair a2 f g).1 t x (a2.length + 1) := by
      generalize hu : a2.length + 1 = uu at hrun
      cases hrun with
      | refl _ => omega
      | eps ht htail =>
        rw [trans_orPair_in a2 f g hfo hgo, if_pos rfl] at ht
        simp at ht
        rcases ht with rfl | rfl
        · exact ⟨f.inState, Or.inl rfl, hu ▸ htail⟩
        · exact ⟨g.inState, Or.inr rfl, hu ▸ htail⟩
      | @symb _ t _ cc rst ht htail =>
        rw [trans_orPair_in a2 f g hfo hgo] at ht
        by_cases hc : cc = EPSILON
        · exact absurd (hc ▸ List.mem_cons_self _ _) hx
        · rw [if_neg hc] at ht
          simp at ht
    obtain ⟨t, hside, hrun2⟩ := hstep
    rcases hside with rfl | rfl
    · -- through the left fragment
      have := region_side_run a2 (orPair a2 f g).1 a0.length a1.length
        f.outState (a2.length + 1)
        (fun k c t hk1 hk2 ht => by
          rcases trans_orPair_mem a2 f g k c t (by omega) ht
            with h1 | ⟨hor, h2, h3⟩
          · exact Or.inl h1
          · rcases hor with rfl | rfl
            · exact Or.inr ⟨rfl, h2, h3⟩
            · exfalso; have := hg.frag.out_lo; omega)
        (fun k c t hk1 hk2 ht => hf2.closed k hk1 hk2 c t ht)
        (fun c => trans_orPair_out_dead a2 f g hfo hgo c)
        f.inState x (a2.length + 1) hrun2 hx hf2.in_lo hf2.in_hi
      rcases this with ⟨_, _, hu2⟩ | ⟨hA, _⟩
      · omega
      · left
        rw [test_iff_accepts]
        exact ⟨f.outState, hA, haccf⟩
    · -- through the right fragment
      have := region_side_run a2 (orPair a2 f g).1 a1.length a2.length
        g.outState (a2.length + 1)
        (fun k c t hk1 hk2 ht => by
          rcases trans_orPair_mem a2 f g k c t (by omega) ht
            with h1 | ⟨hor, h2, h3⟩
          · exact Or.inl h1
          · rcases hor with rfl | rfl
            · exfalso; have := hf2.out_hi; omega
            · exact Or.inr ⟨rfl, h2, h3⟩)
        (fun k c t hk1 hk2 ht => hg.frag.closed k hk1 hk2 c t ht)
        (fun c => trans_orPair_out_dead a2 f g hfo hgo c)
        g.inState x (a2.length + 1) hrun2 hx hg.frag.in_lo hg.frag.in_hi
      rcases this with ⟨_, _, hu2⟩ | ⟨hA, _⟩
      · omega
      · right
        rw [test_iff_accepts]
        exact ⟨g.outState, hA, haccg⟩
  · intro htest
    rw [hsnd, test_iff_accepts]
    show Accepts (orPair a2 f g).1 a2.length x
    rcases htest with htest | htest
    · rw [test_iff_accepts] at htest
      have hrun : Run a2 f.inState x f.outState := accepts_run_out hf2 htest
      have hrunB : Run (orPair a2 f g).1 f.inState x f.outState :=
        run_mono a2 _ (fun s c t ht => trans_le_orPair a2 f g s c t ht) hrun
      refine ⟨a2.length + 1, ?_, acc_orPair_out a2 f g⟩
      refine Run.eps (orPair_in_edge_f a2 f g hfo hgo) ?_
      have := run_append _ hrunB
        (Run.eps (orPair_exit_edge_f a2 f g hfo) (Run.refl _))
      simpa using this
    · rw [test_iff_accepts] at htest
      have hrun : Run a2 g.inState x g.outState :=
        accepts_run_out hg.frag htest
      have hrunB : Run (orPair a2 f g).1 g.inState x g.outState :=
        run_mono a2 _ (fun s c t ht => trans_le_orPair a2 f g s c t ht) hrun
      refine ⟨a2.length + 1, ?_, acc_orPair_out a2 f g⟩
      refine Run.eps (orPair_in_edge_g a2 f g hfo hgo) ?_
      have := run_append _ hrunB
        (Run.eps (orPair_exit_edge_g a2 f g hgo) (Run.refl _))
      simpa using this

/-- Counterexample to C3 as stated: for fragments `char('a')` and
`char('b')`, the string `"aϵ"` (containing the reserved sentinel) is
accepted by `or(a, b)` - the epsilon edge into the shared exit state is
followed as a symbol transition consuming `'ϵ'` - although neither
pre-call fragment accepts it. -/
theorem claim_C3_cex :
    NFA.test (orN (build (build [] (Rx.chr 'a')).1 (Rx.chr 'b')).1
        (build [] (Rx.chr 'a')).2
        [(build (build [] (Rx.chr 'a')).1 (Rx.chr 'b')).2]).1
      (orN (build (build [] (Rx.chr 'a')).1 (Rx.chr 'b')).1
        (build [] (Rx.chr 'a')).2
        [(build (build [] (Rx.chr 'a')).1 (Rx.chr 'b')).2]).2
      ['a', EPSILON] = true ∧
    NFA.test (build (build [] (Rx.chr 'a')).1 (Rx.chr 'b')).1
      (build [] (Rx.chr 'a')).2 ['a', EPSILON] = false ∧
    NFA.test (build (build [] (Rx.chr 'a')).1 (Rx.chr 'b')).1
      (build (build [] (Rx.chr 'a')).1 (Rx.chr 'b')).2
      ['a', EPSILON] = false :=
  ⟨by decide, by decide, by decide⟩

/-- C3 (amended): for independent freshly constructed fragments `a` and
`b` and every input that does not contain the reserved epsilon sentinel,
`test(or(a, b), x)` equals the disjunction of the two pre-call
languages.  (For inputs containing the sentinel the equality can fail, see
the counterexample.) -/
theorem claim_C3 (ra rb : Rx) (a0 : Arena) (x : List Char)
    (hx : EPSILON ∉ x) :
    NFA.test (orN (build (build a0 ra).1 rb).1 (build a0 ra).2
        [(build (build a0 ra).1 rb).2]).1
      (orN (build (build a0 ra).1 rb).1 (build a0 ra).2
        [(build (build a0 ra).1 rb).2]).2 x =
      (NFA.test (build (build a0 ra).1 rb).1 (build a0 ra).2 x ||
        NFA.test (build (build a0 ra).1 rb).1
          (build (build a0 ra).1 rb).2 x) :=
  or_lang (build_built ra a0) (build_built rb (build a0 ra).1) x hx

theorem claim_C3_witness :
    EPSILON ∉ (['a'] : List Char) ∧
    NFA.test (orN (build (build [] (Rx.chr 'a')).1 (Rx.chr 'b')).1
        (build [] (Rx.chr 'a')).2
        [(build (build [] (Rx.chr 'a')).1 (Rx.chr 'b')).2]).1
      (orN (build (build [] (Rx.chr 'a')).1 (Rx.chr 'b')).1
        (build [] (Rx.chr 'a')).2
        [(build (build [] (Rx.chr 'a')).1 (Rx.chr 'b')).2]).2 ['a'] =
      (NFA.test (build (build [] (Rx.chr 'a')).1 (Rx.chr 'b')).1
        (build [] (Rx.chr 'a')).2 ['a'] ||
        NFA.test (build (build [] (Rx.chr 'a')).1 (Rx.chr 'b')).1
          (build (build [] (Rx.chr 'a')).1 (Rx.chr 'b')).2 ['a']) :=
  ⟨by decide, claim_C3 (Rx.chr 'a') (Rx.chr 'b') [] ['a'] (by decide)⟩

/-! ## The question quantifier -/

theorem quest_char_accepts_iff (c : Char) (hc : c ≠ EPSILON)
    (x : List Char) (hx : EPSILON ∉ x) :
    Accepts (questionRep (char [] c).1 (⟨0, 1⟩ : NFA)).1 0 x ↔
      (x = [] ∨ x = [c]) := by
  have hqc : (questionRep (char [] c).1 (⟨0, 1⟩ : NFA)).1 =
      addTransition (char [] c).1 0 EPSILON 1 := rfl
  have hchar0 : ∀ c', trans (char [] c).1 0 c' =
      if c' = c then [1] else [] := by
    intro c'
    have := trans_char_in ([] : Arena) c c'
    simpa using this
  have hchar1 : ∀ c', trans (char [] c).1 1 c' = [] := by
    intro c'
    have := trans_char_out ([] : Arena) c c'
    simpa using this
  have hlen : (char [] c).1.length = 2 := by
    have := char_length ([] : Arena) c
    simpa using this
  have htr0 : ∀ c', trans (questionRep (char [] c).1 (⟨0, 1⟩ : NFA)).1 0 c' =
      if c' = EPSILON then [1] else if c' = c then [1] else [] := by
    intro c'
    rw [hqc, trans_addTransition]
    by_cases hce : c' = EPSILON
    · rw [if_pos ⟨rfl, hce, by omega⟩, hchar0,
        if_neg (fun hcon => hc hcon.symm), if_pos hce]
      rfl
    · rw [if_neg (fun hcon => hce hcon.2.1), hchar0, if_neg hce]
  have htr1 : ∀ c', trans (questionRep (char [] c).1 (⟨0, 1⟩ : NFA)).1 1
      c' = [] := by
    intro c'
    rw [hqc, trans_addTransition, if_neg (by omega), hchar1]
  have hacc0 : (getState (questionRep (char [] c).1
      (⟨0, 1⟩ : NFA)).1 0).accepting = false := by
    rw [hqc, accepting_addTransition]
    have := acc_char_in ([] : Arena) c
    simpa using this
  have hacc1 : (getState (questionRep (char [] c).1
      (⟨0, 1⟩ : NFA)).1 1).accepting = true := by
    rw [hqc, accepting_addTransition]
    have := acc_char_out ([] : Arena) c
    simpa using this
  constructor
  · rintro ⟨u, hrun, hacc⟩
    cases hrun with
    | refl _ => rw [hacc0] at hacc; exact absurd hacc (by simp)
    | eps ht htail =>
      rw [htr0, if_pos rfl] at ht
      simp at ht
      subst ht
      obtain ⟨rfl, rfl⟩ := run_no_trans htr1 htail
      exact Or.inl rfl
    | @symb _ t _ cc rst ht htail =>
      rw [htr0] at ht
      have hcc : cc ≠ EPSILON := fun hcon =>
        hx (hcon ▸ List.mem_cons_self _ _)
      rw [if_neg hcc] at ht
      by_cases hccc : cc = c
      · rw [if_pos hccc] at ht
        simp at ht
        subst ht
        obtain ⟨rfl, rfl⟩ := run_no_trans htr1 htail
        exact Or.inr (by rw [hccc])
      · rw [if_neg hccc] at ht
        simp at ht
  · rintro (rfl | rfl)
    · refine ⟨1, Run.eps ?_ (Run.refl _), hacc1⟩
      rw [htr0, if_pos rfl]
      simp
    · refine ⟨1, Run.symb ?_ (Run.refl _), hacc1⟩
      rw [htr0, if_neg hc, if_pos rfl]
      simp

/-- Counterexample to C7 as stated: for the freshly constructed compound
fragment `a := concat(rep(char('a')), char('d'))`, the non-empty string
`"a"` is accepted by `questionRep(a)` although the pre-call language of
`a` does not contain it - the run loops back to the entry inside `rep` and
then takes the new entry-to-exit epsilon edge. -/
theorem claim_C7_cex :
    NFA.test (questionRep
        (build [] (Rx.cat (Rx.star (Rx.chr 'a')) (Rx.chr 'd'))).1
        (build [] (Rx.cat (Rx.star (Rx.chr 'a')) (Rx.chr 'd'))).2).1
      (questionRep
        (build [] (Rx.cat (Rx.star (Rx.chr 'a')) (Rx.chr 'd'))).1
        (build [] (Rx.cat (Rx.star (Rx.chr 'a')) (Rx.chr 'd'))).2).2
      ['a'] = true ∧
    NFA.test (build [] (Rx.cat (Rx.star (Rx.chr 'a')) (Rx.chr 'd'))).1
      (build [] (Rx.cat (Rx.star (Rx.chr 'a')) (Rx.chr 'd'))).2
      ['a'] = false ∧
    (['a'] : List Char) ≠ [] :=
  ⟨by decide, by decide, by decide⟩

/-- C7 (amended): `questionRep` of a freshly constructed fragment always
accepts the empty string and accepts everything the fragment's pre-call
language accepts; the converse inclusion (and with it "false for two or
more repetitions") fails in general for compound fragments (see the
counterexample) but holds for single-character fragments on sentinel-free
inputs: `test(questionRep(char(c)), x)` is true iff `x` is empty or the
one-character string `c`. -/
theorem claim_C7 (r : Rx) (a0 : Arena) (x : List Char) (c : Char) :
    NFA.test (questionRep (build a0 r).1 (build a0 r).2).1
      (questionRep (build a0 r).1 (build a0 r).2).2 [] = true ∧
    (NFA.test (build a0 r).1 (build a0 r).2 x = true →
      NFA.test (questionRep (build a0 r).1 (build a0 r).2).1
        (questionRep (build a0 r).1 (build a0 r).2).2 x = true) ∧
    (c ≠ EPSILON → EPSILON ∉ x →
      (NFA.test (questionRep (char [] c).1 (char [] c).2).1
          (questionRep (char [] c).1 (char [] c).2).2 x = true ↔
        (x = [] ∨ x = [c]))) := by
  have hb := build_built r a0
  have hfrag := hb.frag
  refine ⟨?_, ?_, ?_⟩
  · rw [questionRep_snd, test_iff_accepts]
    refine ⟨(build a0 r).2.outState,
      Run.eps (questionRep_skip_edge _ _ hfrag.in_hi) (Run.refl _), ?_⟩
    rw [accepting_questionRep]
    exact (hfrag.acc_iff _ hfrag.out_lo hfrag.out_hi).mpr rfl
  · intro htest
    rw [test_iff_accepts] at htest
    obtain ⟨u, hrun, hacc⟩ := htest
    rw [questionRep_snd, test_iff_accepts]
    refine ⟨u, run_mono _ _
      (fun s c t ht => trans_le_questionRep _ _ s c t ht) hrun, ?_⟩
    rw [accepting_questionRep]
    exact hacc
  · intro hc hx
    have hsnd : (char [] c).2 = (⟨0, 1⟩ : NFA) := by
      have := char_snd ([] : Arena) c
      simpa using this
    rw [questionRep_snd, hsnd, test_iff_accepts]
    show Accepts (questionRep (char [] c).1 (⟨0, 1⟩ : NFA)).1 0 x ↔ _
    exact quest_char_accepts_iff c hc x hx

theorem claim_C7_witness :
    NFA.test (questionRep (build [] (Rx.chr 'b')).1
        (build [] (Rx.chr 'b')).2).1
      (questionRep (build [] (Rx.chr 'b')).1 (build [] (Rx.chr 'b')).2).2
      [] = true ∧
    (NFA.test (build [] (Rx.chr 'b')).1 (build [] (Rx.chr 'b')).2 ['b'] =
        true →
      NFA.test (questionRep (build [] (Rx.chr 'b')).1
          (build [] (Rx.chr 'b')).2).1
        (questionRep (build [] (Rx.chr 'b')).1
          (build [] (Rx.chr 'b')).2).2 ['b'] = true) ∧
    ('b' ≠ EPSILON → EPSILON ∉ (['b'] : List Char) →
      (NFA.test (questionRep (char [] 'b').1 (char [] 'b').2).1
          (questionRep (char [] 'b').1 (char [] 'b').2).2 ['b'] = true ↔
        ((['b'] : List Char) = [] ∨ (['b'] : List Char) = ['b']))) :=
  claim_C7 (Rx.chr 'b') [] ['b'] 'b'

/-! ## The heap-explicit matcher: matching never mutates the graph -/

/-- The symbol-transition loop with the heap threaded through the
recursive calls (each call receives the heap left by the previous one);
the visited sets are fresh per call, so only the boolean is kept. -/
def symLoopH (f : Nat → Arena → Option (Bool × Arena)) :
    List Nat → Arena → Option (Bool × Arena)
  | [], a => some (false, a)
  | t :: ts, a =>
    match f t a with
    | none => none
    | some (true, a') => some (true, a')
    | some (false, a') => symLoopH f ts a'

/-- The epsilon-transition loop with both the shared visited set and the
heap threaded through the recursive calls. -/
def epsLoopH
    (f : Nat → Finset Nat → Arena → Option (Bool × Finset Nat × Arena)) :
    List Nat → Finset Nat → Arena → Option (Bool × Finset Nat × Arena)
  | [], v, a => some (false, v, a)
  | t :: ts, v, a =>
    match f t v a with
    | none => none
    | some (true, v', a') => some (true, v', a')
    | some (false, v', a') => epsLoopH f ts v' a'

/-- `State.test` with the heap (the automaton graph) made explicit: every
read goes through the current heap and every recursive call passes the
heap along and continues with the heap it returns, so a mutation anywhere
would be observable in the final heap.  The source performs no writes, and
the theorem below proves the final heap always equals the initial one. -/
def testFuelH : Nat → Nat → List Char → Finset Nat → Arena →
    Option (Bool × Finset Nat × Arena)
  | 0, _, _, _, _ => none
  | fuel + 1, sid, input, visited, a =>
    if sid ∈ visited then some (false, visited, a)
    else
      let visited' := insert sid visited
      match input with
      | [] =>
        if (getState a sid).accepting then some (true, visited', a)
        else epsLoopH (fun t v h => testFuelH fuel t [] v h)
          (trans a sid EPSILON) visited' a
      | c :: rest =>
        match symLoopH (fun t h => (testFuelH fuel t rest ∅ h).map
            (fun r => (r.1, r.2.2))) (trans a sid c) a with
        | none => none
        | some (true, a') => some (true, visited', a')
        | some (false, a') =>
          epsLoopH (fun t v h => testFuelH fuel t (c :: rest) v h)
            (trans a' sid EPSILON) visited' a'

/-- `NFA.test` through the heap-explicit matcher, returning the final
heap together with the verdict. -/
def NFA.testH (a : Arena) (n : NFA) (x : List Char) : Bool × Arena :=
  match testFuelH (fuelNeed a n.inState x ∅) n.inState x ∅ a with
  | some (b, _, a') => (b, a')
  | none => (false, a)

theorem symLoopH_corr (fb : Arena → Nat → Option Bool)
    (f : Nat → Arena → Option (Bool × Arena))
    (hcorr : ∀ t h, f t h = (fb h t).map (fun b => (b, h))) :
    ∀ l a, symLoopH f l a = (anyLoop (fb a) l).map (fun b => (b, a)) := by
  intro l
  induction l with
  | nil => intro a; rfl
  | cons t ts ih =>
    intro a
    rw [symLoopH, hcorr t a, anyLoop]
    rcases hft : fb a t with _ | b
    · rfl
    · rcases b with _ | _
      · show symLoopH f ts a = _
        exact ih a
      · rfl

theorem epsLoopH_corr
    (fe : Arena → Nat → Finset Nat → Option (Bool × Finset Nat))
    (f : Nat → Finset Nat → Arena → Option (Bool × Finset Nat × Arena))
    (hcorr : ∀ t v h, f t v h = (fe h t v).map (fun r => (r.1, r.2, h))) :
    ∀ l v a, epsLoopH f l v a =
      (epsLoop (fe a) l v).map (fun r => (r.1, r.2, a)) := by
  intro l
  induction l with
  | nil => intro v a; rfl
  | cons t ts ih =>
    intro v a
    rw [epsLoopH, hcorr t v a, epsLoop]
    rcases hft : fe a t v with _ | ⟨b, v'⟩
    · rfl
    · rcases b with _ | _
      · show epsLoopH f ts v' a = _
        exact ih v' a
      · rfl

theorem testFuelH_zero (sid : Nat) (x : List Char) (v : Finset Nat)
    (a : Arena) : testFuelH 0 sid x v a = none := rfl

theorem testFuelH_succ_mem (fuel sid : Nat) (x : List Char) (v : Finset Nat)
    (a : Arena) (h : sid ∈ v) :
    testFuelH (fuel + 1) sid x v a = some (false, v, a) := by
  simp [testFuelH, h]

theorem testFuelH_succ_nil_acc (fuel sid : Nat) (v : Finset Nat) (a : Arena)
    (h : sid ∉ v) (hacc : (getState a sid).accepting = true) :
    testFuelH (fuel + 1) sid [] v a = some (true, insert sid v, a) := by
  simp [testFuelH, h, hacc]

theorem testFuelH_succ_nil_eps (fuel sid : Nat) (v : Finset Nat) (a : Arena)
    (h : sid ∉ v) (hacc : (getState a sid).accepting = false) :
    testFuelH (fuel + 1) sid [] v a =
      epsLoopH (fun t w hh => testFuelH fuel t [] w hh)
        (trans a sid EPSILON) (insert sid v) a := by
  simp [testFuelH, h, hacc]

theorem testFuelH_succ_cons (fuel sid : Nat) (c : Char) (rest : List Char)
    (v : Finset Nat) (a : Arena) (h : sid ∉ v) :
    testFuelH (fuel + 1) sid (c :: rest) v a =
      match symLoopH (fun t hh => (testFuelH fuel t rest ∅ hh).map
          (fun r => (r.1, r.2.2))) (trans a sid c) a with
      | none => none
      | some (true, a') => some (true, insert sid v, a')
      | some (false, a') =>
        epsLoopH (fun t w hh => testFuelH fuel t (c :: rest) w hh)
          (trans a' sid EPSILON) (insert sid v) a' := by
  simp [testFuelH, h]

theorem testFuelH_corr :
    ∀ fuel sid x v a, testFuelH fuel sid x v a =
      (testFuel a fuel sid x v).map (fun r => (r.1, r.2, a)) := by
  intro fuel
  induction fuel with
  | zero => intro sid x v a; rfl
  | succ n ih =>
    intro sid x v a
    by_cases hv : sid ∈ v
    · rw [testFuelH_succ_mem _ _ _ _ _ hv, testFuel_succ_mem _ _ _ _ _ hv]
      rfl
    · cases x with
      | nil =>
        by_cases hacc : (getState a sid).accepting = true
        · rw [testFuelH_succ_nil_acc _ _ _ _ hv hacc,
            testFuel_succ_nil_acc _ _ _ _ hv hacc]
          rfl
        · have hacc' : (getState a sid).accepting = false := by
            simpa using hacc
          rw [testFuelH_succ_nil_eps _ _ _ _ hv hacc',
            testFuel_succ_nil_eps _ _ _ _ hv hacc']
          exact epsLoopH_corr (fun h t w => testFuel h n t [] w) _
            (fun t w h => ih t [] w h) _ _ _
      | cons c rest =>
        rw [testFuelH_succ_cons _ _ _ _ _ _ hv,
          testFuel_succ_cons _ _ _ _ _ _ hv]
        rw [symLoopH_corr (fun h t => (testFuel h n t rest ∅).map Prod.fst)
          _ (fun t h => by
            rw [ih t rest ∅ h]
            cases h0 : testFuel h n t rest ∅ <;> simp [h0]) (trans a sid c) a]
        rcases hany : anyLoop
            (fun t => (testFuel a n t rest ∅).map Prod.fst)
            (trans a sid c) with _ | b
        · rfl
        · rcases b with _ | _
          · show epsLoopH _ (trans a sid EPSILON) (insert sid v) a = _
            exact epsLoopH_corr (fun h t w => testFuel h n t (c :: rest) w)
              _ (fun t w h => ih t (c :: rest) w h) _ _ _
          · rfl

/-- C9: matching only reads the automaton graph.  Running the
heap-explicit matcher returns the heap unchanged - every state's accepting
flag and transition table are identical before and after the call - and
produces the same verdict as the ordinary matcher. -/
theorem claim_C9 (a : Arena) (n : NFA) (x : List Char) :
    NFA.testH a n x = (NFA.test a n x, a) := by
  obtain ⟨w, hw⟩ := stest_some a n.inState x
  rw [NFA.testH, testFuelH_corr, hw]
  rfl

end RegexNfa
